import Mathlib

/-!
Verification development for the runtime-argument derivation engine of
`devito/arguments.py` (with `devito/dimension.py` supplying dimension name
conventions).  The Python module models kernel runtime arguments and their
relationships as a dependency graph; an `ArgumentEngine` derives concrete
values for all arguments from partial user input in three passes, adjusts
halo offsets, recomputes tiling (DLE) argument sizes and verifies results.

The embedding below follows the source function by function.  Python dicts
are association lists (insertion ordered); exceptions are the `Err` sum in
an `Except`; machine values that flow through the engine are the `Value`
inductive (numpy arrays are represented by their shape, which is the only
facet the engine reads).  Helpers of the repository that are not part of
the provided sources (`filter_ordered`, `retrieve_offsets`, the
`GenericVisitor` fallback) are modelled from the spec and marked as such.
-/

/-- Errors that can abort a call.  `unknownArguments`, `unknownParameter` and
`unknownDimensionSize` correspond to Python `InvalidArgument` raises (the
latter is raised right after an `error(...)` log line that names the
dimension, so the dimension's identity is part of the surfaced condition);
the others are ordinary Python exceptions escaping the engine. -/
inductive Err where
  | unknownArguments (keys : List String)
  | unknownParameter (name : String)
  | unknownDimensionSize (dim : String)
  | typeError
  | keyError
  | attributeError
  | indexError
  | assertionError
  | fuelOut
  deriving DecidableEq, Repr

/-- A `Dimension` from `devito/dimension.py`: a name, whether it is a
stepping dimension, and (for derived dimensions) the parent's name. -/
structure Dim where
  name : String
  isStepping : Bool := false
  parentName : Option String := none
  deriving DecidableEq, Repr

/-- `Dimension.size_name` ("%s_size"). -/
def Dim.sizeName (d : Dim) : String := d.name ++ "_size"

/-- `Dimension.start_name` ("%s_s"). -/
def Dim.startName (d : Dim) : String := d.name ++ "_s"

/-- `Dimension.end_name` ("%s_e"). -/
def Dim.endName (d : Dim) : String := d.name ++ "_e"

/-- The `value` field of a DLE tiling-argument descriptor: either unset
(`None`), a callable sizing function of the dimension extent, or a fixed
(non-callable) configured size. -/
inductive SizingValue where
  | noneV
  | func (f : Int → Int)
  | fixed (n : Int)

/-- Python truthiness of the descriptor's `value` (`if i.value:`):
`None` and `0` are falsy. -/
def SizingValue.truthy : SizingValue → Bool
  | .noneV => false
  | .func _ => true
  | .fixed n => n != 0

def SizingValue.isFixed : SizingValue → Bool
  | .fixed _ => true
  | _ => false

/-- A DLE tiling-argument descriptor (external input; spec `TilingArgument`):
the blocked dimension it feeds (`i.argument`, itself a `Dimension`), the
dimension it blocks (`i.original_dim`) and the optional sizing value. -/
structure DleArg where
  argumentDim : Dim
  originalDim : Dim
  value : SizingValue

/-- Kind of a dependency edge (`Dependency.dependency_type`). -/
inductive DepKind where
  | getsValueFrom
  | verifiedBy
  deriving DecidableEq, Repr

/-- The optional payload of a dependency (`Dependency.param`): a positional
shape index for tensor deps, or the descriptor for DLE-function deps. -/
inductive DepParam where
  | noneP
  | idx (i : Nat)
  | dle (desc : DleArg)

mutual
/-- A runtime value flowing through the engine: Python `None`, an integer,
a numpy array (modelled by its shape), a `CompositeFunction` argument
(its materialized data plus the ordered values of its children), or a
deferred `UnevaluatedDependency`. -/
inductive Value where
  | vnone
  | vint (n : Int)
  | tensor (shape : List Int)
  | composite (data : Value) (children : List Value)
  | uneval (u : UnevalDep)

/-- An `UnevaluatedDependency`: the consumer's name plus the captured
evaluator.  `lateEval` captures `late_evaluate_dim_size` with its closed-over
`unknown_args` and the `extra_param` list of partially known values;
`deriveDle` captures `derive_dle_argument_value` with the descriptor. -/
inductive UnevalDep where
  | lateEval (consumerName : String) (unknownArgs : List DepTarget)
      (partials : List Value)
  | deriveDle (consumerName : String) (desc : DleArg)

/-- The target object (`Dependency.obj`) of a dependency edge: a created
`TensorArgument` node (by name), a `DimensionParameter` node (by dimension
name), the free function `derive_dle_argument_value`, or a provider object
(a `SymbolicFunction` with its materialized data, a `Constant` with its
data, or an opaque `Object` with its value). -/
inductive DepTarget where
  | tensorArg (name : String)
  | dimParam (dimName : String)
  | dleFunction
  | funcProvider (data : Value)
  | constProvider (data : Value)
  | objProvider (value : Value)
end

def Value.isNone : Value → Bool
  | .vnone => true
  | _ => false

def Value.isUneval : Value → Bool
  | .uneval _ => true
  | _ => false

/-- A value that is neither a deferred placeholder nor a composite bundle:
what a well-behaved caller can supply. -/
def Value.isPlain : Value → Bool
  | .uneval _ => false
  | .composite _ _ => false
  | _ => true

def DepTarget.isTensorArg : DepTarget → Bool
  | .tensorArg _ => true
  | _ => false

/-- A dependency edge (`Dependency`). -/
structure Dep where
  kind : DepKind
  target : DepTarget
  param : DepParam := .noneP

def Dep.isGvf (d : Dep) : Bool := d.kind == .getsValueFrom

def Dep.isVerifiedBy (d : Dep) : Bool := d.kind == .verifiedBy

/-- A node of the dependency graph (`Parameter` and its subclasses).
`scalarArg`, `tensorArg` and `ptrArg` are the kernel-visible `Argument`
variants; `dimParam` is a `DimensionParameter` (not kernel-visible). -/
inductive Node where
  | scalarArg (name : String) (deps : List Dep)
  | tensorArg (name : String) (deps : List Dep)
  | ptrArg (name : String) (deps : List Dep)
  | dimParam (dim : Dim) (deps : List Dep)

def Node.name : Node → String
  | .scalarArg n _ => n
  | .tensorArg n _ => n
  | .ptrArg n _ => n
  | .dimParam d _ => d.name

def Node.deps : Node → List Dep
  | .scalarArg _ ds => ds
  | .tensorArg _ ds => ds
  | .ptrArg _ ds => ds
  | .dimParam _ ds => ds

def Node.isArgument : Node → Bool
  | .dimParam _ _ => false
  | _ => true

def Node.isTensorArg : Node → Bool
  | .tensorArg _ _ => true
  | _ => false

def Node.isDimParam : Node → Bool
  | .dimParam _ _ => true
  | _ => false

/-- Identity key for dictionary membership.  Python dicts are keyed by the
node objects themselves; after `filter_ordered` the argument names are
unique, so an argument node is identified by its name, and a
`DimensionParameter` by its dimension's name (the two kinds are distinct
objects, hence distinct keys). -/
inductive MKey where
  | arg (name : String)
  | dim (name : String)
  deriving DecidableEq, Repr

def Node.key : Node → MKey
  | .dimParam d _ => .dim d.name
  | n => .arg n.name

/-- The (insertion-ordered) value mapping, keyed by graph nodes. -/
abbrev Known := List (Node × Value)

def lookupKnown (k : MKey) : Known → Option Value
  | [] => none
  | (n, v) :: rest => if n.key = k then some v else lookupKnown k rest

/-- `values[i] = v` for a key already present: replace the first entry with
the matching identity. -/
def setVal (a : Node) (v : Value) : Known → Known
  | [] => []
  | (n, w) :: rest =>
    if n.key = a.key then (n, v) :: rest else (n, w) :: setVal a v rest

/-- Exact evaluation-order `mapM` for `Except` (a Python list
comprehension: stop at the first exception). -/
def mapME (f : α → Except Err β) : List α → Except Err (List β)
  | [] => .ok []
  | a :: rest =>
    match f a with
    | .error e => .error e
    | .ok b =>
      match mapME f rest with
      | .error e => .error e
      | .ok bs => .ok (b :: bs)

/-- Sequencing of fallible steps (exception propagation). -/
def exBind (x : Except Err α) (f : α → Except Err β) : Except Err β :=
  match x with
  | .error e => .error e
  | .ok a => f a

theorem exBind_ok {x : Except Err α} {f : α → Except Err β} {b : β} :
    exBind x f = .ok b ↔ ∃ a, x = .ok a ∧ f a = .ok b := by
  cases x with
  | error e => simp [exBind]
  | ok a => simp [exBind]

theorem exBind_error {x : Except Err α} {f : α → Except Err β} {e : Err} :
    exBind x f = .error e ↔
      x = .error e ∨ ∃ a, x = .ok a ∧ f a = .error e := by
  cases x with
  | error e' => simp [exBind]
  | ok a => simp [exBind]

/-- Python `max` on engine values: defined on two ints, a `TypeError`
otherwise (Python 3 refuses to order `None`, `UnevaluatedDependency`
objects, etc. against ints). -/
def pyMax : Value → Value → Except Err Value
  | .vint a, .vint b => .ok (.vint (max a b))
  | _, _ => .error .typeError

/-- `reduce(max, l)`: `TypeError` on an empty sequence, the sole element
unchanged (no comparison) on a singleton, otherwise a left fold of `max`. -/
def reduceMaxGo (acc : Value) : List Value → Except Err Value
  | [] => .ok acc
  | v :: rest =>
    match pyMax acc v with
    | .error e => .error e
    | .ok r => reduceMaxGo r rest

def reduceMax : List Value → Except Err Value
  | [] => .error .typeError
  | v :: rest => reduceMaxGo v rest

/-- `find_argument_by_name`: the entries of the haystack whose key's `name`
matches; asserts there are fewer than two, returns the value or `None`. -/
def findArgumentByName (name : String) (known : Known) :
    Except Err (Option Value) :=
  match known.filter (fun p => p.1.name == name) with
  | [] => .ok none
  | [p] => .ok (some p.2)
  | _ => .error .assertionError

/-- `runtime_dim_extent`: `end - start` from the known values; a `TypeError`
(non-int operands, including `None` and deferred placeholders) is caught
and yields `None`.  The `assert` inside `find_argument_by_name` is not
caught and propagates. -/
def runtimeDimExtent (d : Dim) (known : Known) : Except Err (Option Int) :=
  exBind (findArgumentByName d.endName known) fun e =>
  exBind (findArgumentByName d.startName known) fun s =>
  .ok (match e, s with
    | some (.vint a), some (.vint b) => some (a - b)
    | _, _ => none)

/-- `derive_dle_argument_value`: the blocked dimension's extent if it can be
computed, else a deferred retry; with a truthy configured sizing value,
apply it if callable, and on the `TypeError` of calling a non-callable fall
back to the raw configured value. -/
def deriveDleArgumentValue (consumerName : String) (known : Known)
    (desc : DleArg) : Except Err Value :=
  exBind (runtimeDimExtent desc.originalDim known) fun ext =>
  .ok (match ext with
    | none => .uneval (.deriveDle consumerName desc)
    | some n =>
      if desc.value.truthy then
        match desc.value with
        | .func f => .vint (f n)
        | .fixed k => .vint k
        | .noneV => .vint n
      else .vint n)

/-- `ValueVisitor` dispatch for a dependency (`visit_Dependency` followed
by the visit of its target object), for every target kind except the
recursion into a `DimensionParameter`, which is returned (`Sum.inr`, with
the registered node looked up in the engine's registry `dims`) for the
caller to recurse into.  The consumer is the node whose value is being
sought. -/
def getValueDepBase (dims : List (Dim × List Dep)) (consumer : Node)
    (dep : Dep) (known : Known) :
    Sum (Except Err Value) (Dim × List Dep) :=
  match dep.target with
  | .funcProvider data =>
    -- visit_Function: assert(isinstance(self.consumer, TensorArgument))
    if consumer.isTensorArg then .inl (.ok data)
    else .inl (.error .assertionError)
  | .constProvider data => .inl (.ok data)
  | .objProvider v => .inl (.ok v)
  | .dleFunction =>
    -- visit_function: o(self.consumer, self.known_values, param)
    match dep.param with
    | .dle desc => .inl (deriveDleArgumentValue consumer.name known desc)
    | _ => .inl (.error .attributeError)
  | .dimParam dn =>
    match dims.find? (fun p => p.1.name == dn) with
    | some p => .inr p
    | none => .inl (.error .keyError)
  | .tensorArg tn =>
    -- visit_TensorArgument: assert(isinstance(self.consumer,
    -- DimensionParameter)); self.known_values[o].shape[param]
    if consumer.isDimParam then
      match lookupKnown (.arg tn) known with
      | none => .inl (.error .keyError)
      | some v =>
        match v, dep.param with
        | .tensor shape, .idx i =>
          match shape.get? i with
          | some s => .inl (.ok (.vint s))
          | none => .inl (.error .indexError)
        | .tensor _, _ => .inl (.error .typeError)
        | _, _ => .inl (.error .attributeError)
    else .inl (.error .assertionError)

/-- `ValueVisitor.visit_DimensionParameter` for the dimension `pd` with
dependency list `pdeps`: the start-scalar default of `0`, else the
candidates of all `gets_value_from` dependencies, honoring a concrete
known-value override, with multi-candidate reconciliation by `max` and a
deferred `late_evaluate_dim_size` closure when some candidate is `None`.
Recursion through dimension nodes is bounded by an explicit fuel (the
Python recursion is unbounded; callers pass fuel exceeding the graph
depth). -/
def visitDimParam (dims : List (Dim × List Dep)) :
    Nat → Node → Dim → List Dep → Known → Except Err Value
  | 0, _, _, _, _ => .error .fuelOut
  | fuel + 1, consumer, pd, pdeps, known =>
    if consumer.name = pd.startName then .ok (.vint 0)
    else
      let gvf := pdeps.filter Dep.isGvf
      exBind (mapME (fun dep =>
          match getValueDepBase dims (Node.dimParam pd pdeps) dep known with
          | .inl r => r
          | .inr p =>
            visitDimParam dims fuel (Node.dimParam pd pdeps) p.1 p.2 known)
          gvf) fun provided0 =>
        -- known-value override, skipped for deferred or missing values
        let provided :=
          match lookupKnown (.dim pd.name) known with
          | some v => if !v.isUneval && !v.isNone then [v] else provided0
          | none => provided0
        match provided with
        | [] => .ok .vnone
        | [v] => .ok v
        | v1 :: v2 :: rest =>
          if (v1 :: v2 :: rest).all (fun v => !v.isNone) then
            reduceMax (v1 :: v2 :: rest)
          else
            -- unknown_args recomputes get_value per dependency; evaluation
            -- is pure, so the recomputed results are exactly `provided0`
            let unknownArgs :=
              ((gvf.zip provided0).filter (fun p => p.2.isNone)).map
                (fun p => p.1.target)
            .ok (.uneval (.lateEval pd.name unknownArgs
              ((v1 :: v2 :: rest).filter (fun v => !v.isNone))))

/-- `get_value(consumer, provider, known_values)` for a dependency target:
the base dispatch, recursing into dimension-parameter targets. -/
def getValueDep (dims : List (Dim × List Dep)) (fuel : Nat)
    (consumer : Node) (dep : Dep) (known : Known) : Except Err Value :=
  match getValueDepBase dims consumer dep known with
  | .inl r => r
  | .inr p => visitDimParam dims fuel consumer p.1 p.2 known


/-- The providers (`parameters`) an engine is constructed from: a
`SymbolicFunction` (with its indexing dimensions, materialized data, and —
for a `CompositeFunction` — the names of its children), a `Dimension`,
a `Constant`, or an opaque `Object`. -/
inductive Provider where
  | function (name : String) (indices : List Dim) (data : Value)
      (childrenNames : List String := [])
  | dimension (d : Dim)
  | constant (name : String) (data : Value)
  | obj (name : String) (value : Value)

def Provider.name : Provider → String
  | .function n _ _ _ => n
  | .dimension d => d.name
  | .constant n _ => n
  | .obj n _ => n

/-- The engine's state after `ArgumentEngine.__init__`. -/
structure Engine where
  parameters : List Provider
  dleArgs : List DleArg
  arguments : List Node
  dims : List (Dim × List Dep)
  offsets : List (String × Int)
  deriving Inhabited

/-- `ArgumentEngine.dimensions`: the declared parameters that are
dimensions. -/
def Engine.dimensionProviders (E : Engine) : List Dim :=
  E.parameters.filterMap (fun p =>
    match p with
    | .dimension d => some d
    | _ => none)

/-- `kwargs.pop(name, None)`: remove the first entry with the given key,
returning it (Python dict keys are unique, so at most one exists). -/
def popKey (k : String) : List (String × Value) →
    Option Value × List (String × Value)
  | [] => (none, [])
  | (k', v) :: rest =>
    if k' = k then (some v, rest)
    else
      let r := popKey k rest
      (r.1, (k', v) :: r.2)

/-- Seeding a value in Pass 1: `get_value(i, raw, values)` dispatches the
raw supplied object through the `ValueVisitor`; plain literals visit as
themselves (`visit_object`), while a composite function argument yields its
materialized data (spec 4.3: a backing-array-bearing provider resolves to
its array). -/
def seedValue : Value → Value
  | .composite data _ => data
  | v => v

/-- Pass 1 over the kernel-visible arguments: pop the user value (seeded
through the visitor) or `None`, in declared order. -/
def seedArgs : List Node → List (String × Value) →
    Known × List (String × Value)
  | [], kw => ([], kw)
  | a :: rest, kw =>
    let p := popKey a.name kw
    let r := seedArgs rest p.2
    ((a, (p.1.map seedValue).getD .vnone) :: r.1, r.2)

/-- Pass 1 over the dimension parameters: pop the raw user value or
`None`, kept in a separate map. -/
def seedDims : List (Dim × List Dep) → List (String × Value) →
    Known × List (String × Value)
  | [], kw => ([], kw)
  | d :: rest, kw =>
    let p := popKey d.1.name kw
    let r := seedDims rest p.2
    ((Node.dimParam d.1 d.2, p.1.getD .vnone) :: r.1, r.2)

/-- Pass 2 (`_derive_values`, second loop): for every argument still
`None`, evaluate its `gets_value_from` dependencies against the combined
known-value map.  At least one dependency is asserted.  A single candidate
is adopted; with several candidates the code calls
`reduce(provided_values)` — `functools.reduce` with a single argument and
no combining function — which raises `TypeError`. -/
def pass2 (E : Engine) (fuel : Nat) (dimVals : Known) :
    List Node → Known → Except Err Known
  | [], vals => .ok vals
  | a :: rest, vals =>
    match lookupKnown a.key vals with
    | some .vnone =>
      let known := vals ++ dimVals
      exBind (mapME (fun dep => getValueDep E.dims fuel a dep known)
          (a.deps.filter Dep.isGvf)) fun provided =>
        match provided with
        | [] => .error .assertionError
        | [v] => pass2 E fuel dimVals rest (setVal a v vals)
        | _ :: _ :: _ => .error .typeError
    | _ => pass2 E fuel dimVals rest vals

/-- Key of a dependency target in the value dictionary, when the target is
a node that can be a dictionary key at all. -/
def targetKey : DepTarget → Option MKey
  | .tensorArg n => some (.arg n)
  | .dimParam n => some (.dim n)
  | _ => none

/-- `UnevaluatedDependency.evaluate`: run the captured evaluator against a
known-value map.  `late_evaluate_dim_size` looks the unknown sources up —
a single missing key (`KeyError`) abandons the whole batch — and reduces
the partial and newly known values by `max`; `derive_dle_argument_value`
is retried as is. -/
def evalUneval (u : UnevalDep) (known : Known) : Except Err Value :=
  match u with
  | .lateEval _ unknownArgs partials =>
    let newVals : Option (List Value) :=
      unknownArgs.mapM (fun t => (targetKey t).bind (lookupKnown · known))
    let kn :=
      match newVals with
      | some vs => vs.filter (fun v => !v.isNone)
      | none => []
    reduceMax (partials ++ kn)
  | .deriveDle cn desc => deriveDleArgumentValue cn known desc

/-- Pass 3 (`_derive_values`, final loop): walk the value mapping once in
order, replacing each deferred value by one application of its evaluator
against the current (partially settled) mapping. -/
def settleGo : Known → Known → Except Err Known
  | done, [] => .ok done
  | done, (n, v) :: rest =>
    match v with
    | .uneval u =>
      exBind (evalUneval u (done ++ (n, v) :: rest)) fun v2 =>
        settleGo (done ++ [(n, v2)]) rest
    | _ => settleGo (done ++ [(n, v)]) rest

/-- `ArgumentEngine._derive_values`: seed from user input, reject leftover
(unknown) keys, propagate, settle. -/
def deriveValues (E : Engine) (kwargs : List (String × Value)) :
    Except Err Known :=
  let fuel := E.dims.length + 2
  let s1 := seedArgs E.arguments kwargs
  let s2 := seedDims E.dims s1.2
  if s2.2.isEmpty then
    exBind (pass2 E fuel s2.1 E.arguments s1.1) fun vals2 =>
      settleGo [] vals2
  else .error (.unknownArguments (s2.2.map Prod.fst))

/-- `v + offset` during offset adjustment: integer addition; adding an int
to a numpy array broadcasts and keeps the shape; anything else (`None`,
deferred objects) raises `TypeError`. -/
def pyAdd (v : Value) (n : Int) : Except Err Value :=
  match v with
  | .vint a => .ok (.vint (a + n))
  | .tensor s => .ok (.tensor s)
  | _ => .error .typeError

/-- `ArgumentEngine._offset_adjust`: add the precomputed halo offset to
every supplied value whose key is a known dimension-end name. -/
def offsetAdjust (offsets : List (String × Int)) :
    List (String × Value) → Except Err (List (String × Value))
  | [] => .ok []
  | (k, v) :: rest =>
    match offsets.lookup k with
    | some w =>
      exBind (pyAdd v w) fun v' =>
      exBind (offsetAdjust offsets rest) fun rest' => .ok ((k, v') :: rest')
    | none =>
      exBind (offsetAdjust offsets rest) fun rest' => .ok ((k, v) :: rest')

/-- `dict[k] = v`: replace the entry if the key exists, else append. -/
def dictInsert (k : String) (v : α) : List (String × α) → List (String × α)
  | [] => [(k, v)]
  | (k', v') :: rest =>
    if k' = k then (k, v) :: rest else (k', v') :: dictInsert k v rest

/-- `ArgumentEngine._extract_children_of_composites`: for every supplied
composite value, find the declared parameter of the same name (an unknown
name is an `InvalidArgument`; exactly one match is asserted; a
non-composite declared parameter has no `children` attribute), pair its
children's names with the supplied children's values, and update the
input with all such pairs. -/
def collectComposites (params : List Provider) :
    List (String × Value) → Except Err (List (String × Value))
  | [] => .ok []
  | (k, v) :: rest =>
    match v with
    | .composite _ children =>
      match params.filter (fun p => p.name == k) with
      | [] => .error (.unknownParameter k)
      | [p] =>
        match p with
        | .function _ _ _ childNames =>
          exBind (collectComposites params rest) fun acc =>
            .ok (childNames.zip children ++ acc)
        | _ => .error .attributeError
      | _ => .error .assertionError
    | _ => collectComposites params rest

def extractComposites (params : List Provider)
    (kwargs : List (String × Value)) :
    Except Err (List (String × Value)) :=
  exBind (collectComposites params kwargs) fun newParams =>
    .ok (newParams.foldl (fun kw p => dictInsert p.1 p.2 kw) kwargs)

/-- Whether a descriptor keeps autotuning eligible: only a truthy
non-callable configured size (a fixed tile) makes the call
`i.value(dim_size)` raise `TypeError` and switch autotuning off. -/
def dleEligible (d : DleArg) : Bool := !(d.value.truthy && d.value.isFixed)

/-- `ArgumentEngine._dle_arguments`: resolve each descriptor's concrete
size from the blocked dimension's extent, accumulating autotune
eligibility; an unresolvable extent is fatal (logged with the dimension's
name, then `InvalidArgument`). -/
def dleArgumentsGo (sizes : List (String × Option Int)) :
    List DleArg → List (String × Value) → Bool →
    Except Err (List (String × Value) × Bool)
  | [], m, auto => .ok (m, auto)
  | desc :: rest, m, auto =>
    match (sizes.lookup desc.originalDim.name).getD none with
    | none => .error (.unknownDimensionSize desc.originalDim.name)
    | some n =>
      if desc.value.truthy then
        match desc.value with
        | .func f =>
          dleArgumentsGo sizes rest
            (dictInsert desc.argumentDim.name (.vint (f n)) m) auto
        | .fixed k =>
          -- i.value(dim_size) raises TypeError: fall back to the raw
          -- value and mark autotuning ineligible
          dleArgumentsGo sizes rest
            (dictInsert desc.argumentDim.name (.vint k) m) false
        | .noneV =>
          dleArgumentsGo sizes rest
            (dictInsert desc.argumentDim.name (.vint n) m) auto
      else
        dleArgumentsGo sizes rest
          (dictInsert desc.argumentDim.name (.vint n) m) auto

def dleArguments (descs : List DleArg) (sizes : List (String × Option Int)) :
    Except Err (List (String × Value) × Bool) :=
  dleArgumentsGo sizes descs [] true

/-- The `dim_sizes` dictionary built in `handle`: the runtime extent of
every declared dimension from the derived values. -/
def handleDimSizes (E : Engine) (vals : Known) :
    Except Err (List (String × Option Int)) :=
  exBind (mapME (fun d =>
      exBind (runtimeDimExtent d vals) fun ext => .ok (d.name, ext))
      E.dimensionProviders) fun l =>
    .ok (l.foldl (fun acc p => dictInsert p.1 p.2 acc) [])

/-- `ArgumentEngine._verify`: the local accumulator is named `verify`,
shadowing any verifier; for an argument with a non-empty `verified_by`
list the generator calls that boolean, raising `TypeError` without
evaluating any predicate.  With only empty `verified_by` lists the
accumulator stays `True`. -/
def verifyValuesGo (acc : Bool) : Known → Except Err Bool
  | [] => .ok acc
  | p :: rest =>
    if acc then
      if (p.1.deps.filter Dep.isVerifiedBy).isEmpty then
        verifyValuesGo acc rest
      else .error .typeError
    else verifyValuesGo acc rest

def verifyValues (vals : Known) : Except Err Bool := verifyValuesGo true vals

/-- `ArgumentEngine.handle`.  The `autotune` request is popped from the
input (here an explicit parameter); offsets are adjusted, composites
flattened, values derived, tiling sizes recomputed for the autotune flag,
values verified; the name-to-value mapping and the effective autotune flag
are returned. -/
def handle (E : Engine) (kwargs : List (String × Value))
    (userAutotune : Bool) :
    Except Err (List (String × Value) × Bool) :=
  exBind (offsetAdjust E.offsets kwargs) fun kw1 =>
  exBind (extractComposites E.parameters kw1) fun kw2 =>
  exBind (deriveValues E kw2) fun vals =>
  exBind (handleDimSizes E vals) fun sizes =>
  exBind (dleArguments E.dleArgs sizes) fun dle =>
  exBind (verifyValues vals) fun vok =>
  if vok then
    .ok (vals.map (fun p => (p.1.name, p.2)), userAutotune && dle.2)
  else .error .assertionError

/-- `ArgumentVisitor.visit_DimensionParameter`: emit exactly three
`ScalarArgument`s — size, start, end — each with a `gets_value_from`
dependency on the owning `DimensionParameter` node. -/
def argVisitDimensionParameter (d : Dim) : List Node :=
  [Node.scalarArg d.sizeName [⟨.getsValueFrom, .dimParam d.name, .noneP⟩],
   Node.scalarArg d.startName [⟨.getsValueFrom, .dimParam d.name, .noneP⟩],
   Node.scalarArg d.endName [⟨.getsValueFrom, .dimParam d.name, .noneP⟩]]

/-- `ArgumentVisitor.visit_SymbolicFunction` (also reached through
`TensorArgument.__init__`): a tensor argument depending on its provider. -/
def argVisitSymbolicFunction (name : String) (data : Value) : Node :=
  Node.tensorArg name [⟨.getsValueFrom, .funcProvider data, .noneP⟩]

/-- The `ArgumentVisitor` dispatch over a declared provider, as used for
the `other_arguments` pass.  A `SymbolicFunction` is visited again (the
membership test of the source compares providers against created nodes, so
it never filters a provider out) producing a second, duplicate tensor
argument; a `Constant` produces a scalar argument depending on its own
provider.  Modelled from the spec: the visitor fallback for a plain
`Dimension` produces no argument (step 6 covers only the remaining scalar,
constant and opaque-handle providers). -/
def argVisit (p : Provider) : Option Node :=
  match p with
  | .function n _ data _ => some (argVisitSymbolicFunction n data)
  | .dimension _ => none
  | .constant n data =>
    some (Node.scalarArg n [⟨.getsValueFrom, .constProvider data, .noneP⟩])
  | .obj n v =>
    some (Node.ptrArg n [⟨.getsValueFrom, .objProvider v, .noneP⟩])

/-- Append a dependency under a dimension key of the dependency mapper,
inserting the key on first use (Python `dict` insertion order). -/
def ddmAppend (d : Dim) (dep : Dep) :
    List (Dim × List Dep) → List (Dim × List Dep)
  | [] => [(d, [dep])]
  | (d', deps) :: rest =>
    if d' = d then (d', deps ++ [dep]) :: rest
    else (d', deps) :: ddmAppend d dep rest

/-- The `SymbolicFunction` providers (name, indices, data). -/
def funcsOf (params : List Provider) : List (String × List Dim × Value) :=
  params.filterMap (fun p =>
    match p with
    | .function n idx data _ => some (n, idx, data)
    | _ => none)

/-- The declared `Dimension` providers. -/
def paramDimsOf (params : List Provider) : List Dim :=
  params.filterMap (fun p =>
    match p with
    | .dimension d => some d
    | _ => none)

/-- The tensor arguments created for the symbolic functions. -/
def tensorArgsOf (params : List Provider) : List Node :=
  (funcsOf params).map (fun f => argVisitSymbolicFunction f.1 f.2.2)

/-- The `DimensionParameter` construction of `_build_argument_mapper`:
per-dimension dependencies from tensor shapes (positional payload), then
from tiling descriptors; unreferenced declared dimensions get empty
dependency lists; each stepping dimension appends a dependency on its node
to its parent's (a missing parent is a `KeyError`). -/
def buildDpm (params : List Provider) (dles : List DleArg) :
    Except Err (List (Dim × List Dep)) :=
  let funcs := funcsOf params
  let ddm0 := funcs.foldl (fun ddm f =>
    (f.2.1.enum.foldl (fun ddm di =>
      ddmAppend di.2 ⟨.getsValueFrom, .tensorArg f.1, .idx di.1⟩ ddm) ddm))
    []
  let ddm1 := dles.foldl (fun ddm desc =>
    ddmAppend desc.argumentDim
      ⟨.getsValueFrom, .dleFunction, .dle desc⟩ ddm) ddm0
  let paramDims := paramDimsOf params
  let dpm := ddm1 ++
    (paramDims.filter (fun d => !(ddm1.any (fun p => p.1 = d)))).map
      (fun d => (d, ([] : List Dep)))
  (paramDims.filter (·.isStepping)).foldl
    (fun acc sd =>
      match acc with
      | .error e => .error e
      | .ok dpm =>
        match sd.parentName with
        | none => .error .attributeError
        | some pn =>
          if dpm.any (fun p => p.1.name = pn) then
            .ok (dpm.map (fun p =>
              if p.1.name = pn then
                (p.1, p.2 ++ [⟨.getsValueFrom, .dimParam sd.name, .noneP⟩])
              else p))
          else .error .keyError)
    (.ok dpm)

/-- `ArgumentEngine._build_argument_mapper`.  Returns the full ordered node
set: tensor arguments, dimension parameters, the scalar arguments emitted
per dimension, and the re-visited `other_arguments`. -/
def buildArgumentMapper (params : List Provider) (dles : List DleArg) :
    Except Err (List Node) :=
  match buildDpm params dles with
  | .error e => .error e
  | .ok dpm2 =>
    -- tensor arguments, dimension parameters, the per-dimension scalar
    -- arguments, and the re-visited remaining providers, in order
    .ok (tensorArgsOf params ++ dpm2.map (fun p => Node.dimParam p.1 p.2)
      ++ dpm2.flatMap (fun p => argVisitDimensionParameter p.1)
      ++ params.filterMap argVisit)

/-- Modelled from the spec: `filter_ordered` keeps, per name, only the
first node encountered, preserving order. -/
def filterOrderedGo (seen : List String) : List Node → List Node
  | [] => []
  | x :: xs =>
    if seen.contains x.name then filterOrderedGo seen xs
    else x :: filterOrderedGo (x.name :: seen) xs

def filterOrdered (l : List Node) : List Node := filterOrderedGo [] l

/-- First-occurrence deduplication of a name list (the order `handle`'s
result keys are claimed to carry). -/
def dedupKeepFirstGo (seen : List String) : List String → List String
  | [] => []
  | x :: xs =>
    if seen.contains x then dedupKeepFirstGo seen xs
    else x :: dedupKeepFirstGo (x :: seen) xs

def dedupKeepFirst (l : List String) : List String := dedupKeepFirstGo [] l

/-- Modelled from the spec: `retrieve_offsets` scans all stencils and
takes, per dimension, the maximum absolute relative offset observed. -/
def maxAbsOffset (os : List Int) : Int :=
  os.foldl (fun m o => max m o.natAbs) 0

def retrieveOffsets (stencils : List (Dim × List Int)) : List (Dim × Int) :=
  stencils.foldl (fun acc p =>
    match acc.lookup p.1 with
    | some w =>
      acc.map (fun q => if q.1 = p.1 then (q.1, max w (maxAbsOffset p.2)) else q)
    | none => acc ++ [(p.1, maxAbsOffset p.2)]) []

/-- `ArgumentEngine.__init__`: build the mapper, partition it into the
kernel-visible arguments (first node per name kept) and the dimension
parameters, and precompute the per-end-name halo offsets. -/
def mkEngine (params : List Provider) (dles : List DleArg)
    (stencils : List (Dim × List Int)) : Except Err Engine :=
  match buildArgumentMapper params dles with
  | .error e => .error e
  | .ok mapper =>
    .ok { parameters := params
          dleArgs := dles
          arguments := filterOrdered (mapper.filter Node.isArgument)
          dims := mapper.filterMap (fun n =>
            match n with
            | .dimParam d deps => some (d, deps)
            | _ => none)
          offsets := (retrieveOffsets stencils).map
            (fun p => (p.1.endName, p.2)) }

/-- Extract an engine from a successful construction (used to name
concrete engines in the theorems below). -/
def getEngine (x : Except Err Engine) : Engine :=
  match x with
  | .ok e => e
  | .error _ => default

/-- The mapping part of a successful `handle` result. -/
def resOf (x : Except Err (List (String × Value) × Bool)) :
    List (String × Value) :=
  match x with
  | .ok r => r.1
  | .error _ => []

/-- The autotune flag of a successful `handle` result. -/
def flagOf (x : Except Err (List (String × Value) × Bool)) : Bool :=
  match x with
  | .ok r => r.2
  | .error _ => false

def isOkB (x : Except Err α) : Bool :=
  match x with
  | .ok _ => true
  | .error _ => false

/-! ### Concrete engines used as inputs of the theorems below -/

def dimX : Dim := { name := "x" }

/-- An engine whose argument mapper contains a kernel-visible argument with
two `GetsValueFrom` dependencies (the `Parameter` API accepts any
dependency list), both on resolvable constants. -/
def engReduceBug : Engine :=
  { parameters := [], dleArgs := [], dims := [], offsets := []
    arguments := [Node.scalarArg "a"
      [⟨.getsValueFrom, .constProvider (.vint 10), .noneP⟩,
       ⟨.getsValueFrom, .constProvider (.vint 14), .noneP⟩]] }

/-- Two tensors of shape 10 and 14 sharing the dimension `x`. -/
def engTwoTensors : Engine := getEngine (mkEngine
  [.function "u" [dimX] (.tensor [10]),
   .function "v" [dimX] (.tensor [14]),
   .dimension dimX] [] [])

def dimT : Dim := { name := "t" }
def dimO : Dim := { name := "o" }
def dimS : Dim := { name := "s", isStepping := true, parentName := some "o" }
def dimD : Dim := { name := "d" }

/-- Two chained tiling descriptors plus a stepping dimension: `d` is blocked
over `o`, `o` is blocked over the tensor dimension `t`, and `s` steps over
parent `o`.  After Pass 2, `d`'s scalars defer on `o`'s extent and `o`'s
scalars defer on the stepping candidate; Pass 3 settles `o` (after `d` was
already revisited), so `d`'s deferred values survive while every
descriptor's extent is resolvable when the autotune pass checks it. -/
def engDeferred : Engine := getEngine (mkEngine
  [.function "T" [dimT] (.tensor [10]),
   .dimension dimT, .dimension dimO, .dimension dimS]
  [{ argumentDim := dimD, originalDim := dimO, value := .noneV },
   { argumentDim := dimO, originalDim := dimT, value := .noneV }] [])

def dimBX : Dim := { name := "bx" }

/-- One tiling descriptor with a fixed (non-callable) configured size. -/
def engFixedTile : Engine := getEngine (mkEngine
  [.function "u" [dimX] (.tensor [10]), .dimension dimX]
  [{ argumentDim := dimBX, originalDim := dimX, value := .fixed 7 }] [])

def dimZ : Dim := { name := "z" }
def dimZB : Dim := { name := "zb" }

/-- A tiling descriptor whose blocked dimension `z` has no tensor feeding
it and no user override, so its extent cannot be determined. -/
def engUnsizedDle : Engine := getEngine (mkEngine
  [.dimension dimZ]
  [{ argumentDim := dimZB, originalDim := dimZ, value := .noneV }] [])

/-- One tensor over `x` with a stencil touching `x` at offsets -1, 0, +2. -/
def engOffsets : Engine := getEngine (mkEngine
  [.function "u" [dimX] (.tensor [10]), .dimension dimX]
  [] [(dimX, [-1, 0, 2])])

/-! ### C1 -/

/-- C1: the claim reads the Pass-2 reconciliation of a kernel-visible
argument with several `GetsValueFrom` dependencies as "adopt the maximum of
all currently resolvable candidates".  The source line is
`reduce(provided_values)` — `functools.reduce` called with a single
argument and no combining function — which raises `TypeError` for every
such argument, resolvable candidates or not (first conjunct).  The maximum
rule is real one level down: a dimension fed by two tensors of shape 10 and
14 along the matching axis derives size 14 through
`ValueVisitor.visit_DimensionParameter`'s `reduce(max, ...)` (second
conjunct). -/
theorem c1_reduce_bug_eval :
    deriveValues engReduceBug [] = .error .typeError ∧
    (resOf (handle engTwoTensors [] false)).lookup "x_size" =
      some (.vint 14) :=
  ⟨rfl, rfl⟩

/-! ### C4 -/

/-- C4: `_verify` rebinds the name `verify` to its boolean accumulator, so
for any argument carrying a `VerifiedBy` dependency the generator calls
that boolean — `TypeError`, with no predicate ever evaluated and no
invalid-argument condition (first conjunct); engines whose arguments carry
no `VerifiedBy` dependencies (the only kind the engine ever builds) sail
through verification unconditionally (second conjunct). -/
theorem c4_verify_shadow_bug_eval :
    verifyValues [(Node.scalarArg "a"
      [⟨.verifiedBy, .constProvider (.vint 1), .noneP⟩], .vint 5)] =
      .error .typeError ∧
    isOkB (handle engTwoTensors [] false) = true :=
  ⟨rfl, rfl⟩

/-! ### C7 -/

/-- C7: whenever the value resolver visits a `DimensionParameter` on behalf
of a consumer whose name is that dimension's start-scalar name, it returns
0 — a dimension with no explicit start input derives start value 0.  (Any
positive fuel: the Python recursion carries no fuel at all.) -/
theorem c7_start_default (dims : List (Dim × List Dep)) (fuel : Nat)
    (consumer : Node) (pd : Dim) (pdeps : List Dep) (known : Known)
    (h : consumer.name = pd.startName) :
    visitDimParam dims (fuel + 1) consumer pd pdeps known = .ok (.vint 0) := by
  rw [visitDimParam]
  rw [if_pos h]

/-- Witness for C7 at a concrete start scalar. -/
theorem c7_start_default_witness :
    visitDimParam [] 1 (Node.scalarArg "x_s" []) { name := "x" } [] [] =
      .ok (.vint 0) :=
  c7_start_default [] 0 (Node.scalarArg "x_s" []) { name := "x" } [] [] rfl

/-! ### C2, counterexample part -/

/-- Whether a name maps to a deferred placeholder in a result mapping. -/
def lookupIsUneval (k : String) (m : List (String × Value)) : Bool :=
  match m.lookup k with
  | some v => v.isUneval
  | none => false

/-- C2 counterexample: on `engDeferred` with no user input, `handle`
returns normally, yet the returned mapping still contains an
`UnevaluatedDependency` for the blocked dimension's size scalar: the
Pass-3 re-evaluation of `d_size`'s deferred value ran while `o`'s end
scalar was itself still deferred, returned a fresh deferred value, and was
never revisited. -/
theorem c2_deferred_survives_counterexample :
    isOkB (handle engDeferred [] true) = true ∧
    lookupIsUneval "d_size" (resOf (handle engDeferred [] true)) = true :=
  ⟨rfl, rfl⟩

/-! ### C3 -/

/-- The autotune accumulator of `_dle_arguments` ends as the conjunction of
its initial value with per-descriptor eligibility: only a truthy
non-callable configured size switches it off. -/
theorem dleArgumentsGo_flag :
    ∀ (descs : List DleArg) (sizes : List (String × Option Int))
      (m0 : List (String × Value)) (auto0 : Bool)
      (m : List (String × Value)) (b : Bool),
      dleArgumentsGo sizes descs m0 auto0 = .ok (m, b) →
      b = (auto0 && descs.all dleEligible) := by
  intro descs
  induction descs with
  | nil =>
    intro sizes m0 auto0 m b h
    rw [dleArgumentsGo] at h
    injection h with h'
    injection h' with h1 h2
    simp [← h2]
  | cons d rest ih =>
    intro sizes m0 auto0 m b h
    rw [dleArgumentsGo] at h
    cases hl : (sizes.lookup d.originalDim.name).getD none with
    | none => rw [hl] at h; exact Except.noConfusion h
    | some n =>
      rw [hl] at h
      cases hv : d.value with
      | noneV =>
        rw [hv] at h
        simp only [SizingValue.truthy, Bool.false_eq_true, if_false] at h
        have := ih sizes _ auto0 m b h
        simp [this, dleEligible, hv, SizingValue.truthy, SizingValue.isFixed]
      | func f =>
        rw [hv] at h
        simp only [SizingValue.truthy, if_true] at h
        have := ih sizes _ auto0 m b h
        simp [this, dleEligible, hv, SizingValue.truthy, SizingValue.isFixed]
      | fixed k =>
        rw [hv] at h
        by_cases hk : k = 0
        · subst hk
          simp only [SizingValue.truthy, bne_self_eq_false,
            Bool.false_eq_true, if_false] at h
          have := ih sizes _ auto0 m b h
          simp [this, dleEligible, hv, SizingValue.truthy, SizingValue.isFixed]
        · have hkb : (k != 0) = true := by simpa using hk
          simp only [SizingValue.truthy, hkb, if_true] at h
          have := ih sizes _ false m b h
          simp [this, dleEligible, hv, SizingValue.truthy,
            SizingValue.isFixed, hkb]

/-- C3: the boolean returned by `handle` is the caller's autotune request
ANDed with per-descriptor eligibility: any descriptor whose configured
sizing value is truthy but not callable (a fixed-size tile, resolved to the
raw configured value) forces the flag to `false`; when every descriptor's
configured value is a callable sizing function (or unset), the flag equals
the caller's request. -/
theorem c3_autotune_flag (E : Engine) (kwargs : List (String × Value))
    (u : Bool) (m : List (String × Value)) (b : Bool)
    (h : handle E kwargs u = .ok (m, b)) :
    b = (u && E.dleArgs.all dleEligible) := by
  simp only [handle, exBind_ok] at h
  obtain ⟨kw1, h1, kw2, h2, vals, h3, sizes, h4, dle, h5, vok, h6, h⟩ := h
  cases vok with
  | false => simp only [Bool.false_eq_true, if_false] at h
             exact Except.noConfusion h
  | true =>
    simp only [if_true] at h
    injection h with h'
    have hb : b = (u && dle.2) := by
      have := congrArg Prod.snd h'
      simpa using this.symm
    rw [dleArguments] at h5
    have hflag := dleArgumentsGo_flag E.dleArgs sizes [] true dle.1 dle.2
      (by rw [← h5])
    rw [hb, hflag]
    simp

/-- Witness for C3: a fixed-size tile (`engFixedTile`) makes the returned
flag `false` even though the caller requested `true`. -/
theorem c3_autotune_witness :
    isOkB (handle engFixedTile [] true) = true ∧
    flagOf (handle engFixedTile [] true) = false := by
  refine ⟨rfl, ?_⟩
  obtain ⟨m, b, hb⟩ : ∃ m b, handle engFixedTile [] true = .ok (m, b) :=
    ⟨_, _, rfl⟩
  have hflag := c3_autotune_flag engFixedTile [] true m b hb
  rw [hb]
  show b = false
  rw [hflag]
  rfl

/-! ### C6 -/

/-- The mapping part of a successful kwargs transformation. -/
def kwOf (x : Except Err (List (String × Value))) : List (String × Value) :=
  match x with
  | .ok l => l
  | .error _ => []

/-- C6: (i) for every supplied key that is a known dimension-end name with
halo offset `w` and user value `E`, the adjusted input carries `E + w` at
that key — the offset is added exactly once per call (the result is
`E + w`, not `E + 2w`); (ii) the engine's offset table maps each stencil
dimension's end name to its halo offset; (iii) the halo offset of a single
stencil is the maximum absolute relative offset; (iv) offsets {-1, 0, +2}
give halo offset 2. -/
theorem c6_offset_adjust :
    (∀ (offs : List (String × Int)) (kw kw2 : List (String × Value))
      (k : String) (w : Int) (e : Int),
      offsetAdjust offs kw = .ok kw2 → offs.lookup k = some w →
      kw.lookup k = some (.vint e) →
      kw2.lookup k = some (.vint (e + w))) ∧
    (∀ (params : List Provider) (dles : List DleArg)
      (st : List (Dim × List Int)) (E : Engine),
      mkEngine params dles st = .ok E →
      E.offsets = (retrieveOffsets st).map (fun p => (p.1.endName, p.2))) ∧
    (∀ (d : Dim) (os : List Int),
      retrieveOffsets [(d, os)] = [(d, maxAbsOffset os)]) ∧
    maxAbsOffset [-1, 0, 2] = 2 := by
  refine ⟨?_, ?_, ?_, rfl⟩
  · intro offs kw
    induction kw with
    | nil =>
      intro kw2 k w e h ho hk
      simp [List.lookup] at hk
    | cons p rest ih =>
      intro kw2 k w e h ho hk
      obtain ⟨k1, v1⟩ := p
      rw [List.lookup] at hk
      by_cases hkk : (k == k1) = true
      · have hk1 : k = k1 := eq_of_beq hkk
        subst hk1
        rw [hkk] at hk
        injection hk with hk
        subst hk
        simp only [offsetAdjust, ho, exBind_ok] at h
        obtain ⟨v1', hv1, rest2, hrest, h⟩ := h
        rw [show pyAdd (Value.vint e) w = .ok (.vint (e + w)) from rfl] at hv1
        injection hv1 with hv1
        subst hv1
        injection h with h
        subst h
        simp [List.lookup]
      · rw [Bool.not_eq_true] at hkk
        rw [hkk] at hk
        cases hl1 : offs.lookup k1 with
        | some w1 =>
          simp only [offsetAdjust, hl1, exBind_ok] at h
          obtain ⟨v1', hv1, rest2, hrest, h⟩ := h
          injection h with h
          subst h
          rw [List.lookup, hkk]
          exact ih rest2 k w e hrest ho hk
        | none =>
          simp only [offsetAdjust, hl1, exBind_ok] at h
          obtain ⟨rest2, hrest, h⟩ := h
          injection h with h
          subst h
          rw [List.lookup, hkk]
          exact ih rest2 k w e hrest ho hk
  · intro params dles st E h
    rw [mkEngine] at h
    cases hb : buildArgumentMapper params dles with
    | error e => rw [hb] at h; exact Except.noConfusion h
    | ok mapper =>
      rw [hb] at h
      injection h with h
      rw [← h]
  · intro d os
    rfl

/-- Witness for C6: stencil offsets {-1, 0, +2} on `x` and user end value 5
derive end input 7 on `engOffsets`. -/
theorem c6_offset_witness :
    (kwOf (offsetAdjust engOffsets.offsets
      [("x_e", Value.vint 5)])).lookup "x_e" = some (Value.vint 7) := by
  have h := c6_offset_adjust.1 engOffsets.offsets [("x_e", Value.vint 5)]
    (kwOf (offsetAdjust engOffsets.offsets [("x_e", Value.vint 5)]))
    "x_e" 2 5 rfl rfl rfl
  exact h

/-! ### C8 -/

/-- If any descriptor's blocked-dimension extent is missing from the size
table, `_dle_arguments` fails with the unknown-dimension-size error naming
one such descriptor's dimension. -/
theorem dleArgumentsGo_unresolved :
    ∀ (descs : List DleArg) (sizes : List (String × Option Int))
      (m0 : List (String × Value)) (auto0 : Bool),
      descs.any (fun d =>
        ((sizes.lookup d.originalDim.name).getD none).isNone) = true →
      ∃ dn, dleArgumentsGo sizes descs m0 auto0 =
          .error (.unknownDimensionSize dn) ∧
        descs.any (fun d => d.originalDim.name == dn &&
          ((sizes.lookup d.originalDim.name).getD none).isNone) = true := by
  intro descs
  induction descs with
  | nil => intro sizes m0 auto0 h; simp at h
  | cons d rest ih =>
    intro sizes m0 auto0 h
    cases hl : (sizes.lookup d.originalDim.name).getD none with
    | none =>
      refine ⟨d.originalDim.name, ?_, ?_⟩
      · rw [dleArgumentsGo, hl]
      · simp [hl]
    | some n =>
      have hrest : rest.any (fun d =>
          ((sizes.lookup d.originalDim.name).getD none).isNone) = true := by
        simp only [List.any_cons, hl] at h
        simpa using h
      rw [dleArgumentsGo, hl]
      cases hv : d.value with
      | noneV =>
        simp only [SizingValue.truthy, Bool.false_eq_true, if_false]
        obtain ⟨dn, hgo, hany⟩ := ih sizes _ auto0 hrest
        exact ⟨dn, hgo, by simp [hany]⟩
      | func f =>
        simp only [SizingValue.truthy, if_true]
        obtain ⟨dn, hgo, hany⟩ := ih sizes _ auto0 hrest
        exact ⟨dn, hgo, by simp [hany]⟩
      | fixed k =>
        by_cases hk : k = 0
        · subst hk
          simp only [SizingValue.truthy, bne_self_eq_false,
            Bool.false_eq_true, if_false]
          obtain ⟨dn, hgo, hany⟩ := ih sizes _ auto0 hrest
          exact ⟨dn, hgo, by simp [hany]⟩
        · have hkb : (k != 0) = true := by simpa using hk
          simp only [SizingValue.truthy, hkb, if_true]
          obtain ⟨dn, hgo, hany⟩ := ih sizes _ false hrest
          exact ⟨dn, hgo, by simp [hany]⟩

/-- C8: if, with values derived, some tiling descriptor's blocked-dimension
extent is absent from the size table (no derivable extent, no explicit
override), `handle` fails with the invalid-argument error carrying the
identity of one such dimension. -/
theorem c8_unresolvable_dim_size (E : Engine)
    (kwargs kw1 kw2 : List (String × Value)) (u : Bool) (vals : Known)
    (sizes : List (String × Option Int))
    (h1 : offsetAdjust E.offsets kwargs = .ok kw1)
    (h2 : extractComposites E.parameters kw1 = .ok kw2)
    (h3 : deriveValues E kw2 = .ok vals)
    (h4 : handleDimSizes E vals = .ok sizes)
    (h5 : E.dleArgs.any (fun d =>
      ((sizes.lookup d.originalDim.name).getD none).isNone) = true) :
    ∃ dn, handle E kwargs u = .error (.unknownDimensionSize dn) ∧
      E.dleArgs.any (fun d => d.originalDim.name == dn &&
        ((sizes.lookup d.originalDim.name).getD none).isNone) = true := by
  obtain ⟨dn, hgo, hany⟩ := dleArgumentsGo_unresolved E.dleArgs sizes [] true h5
  refine ⟨dn, ?_, hany⟩
  simp only [handle, h1, h2, h3, h4, exBind, dleArguments, hgo]

/-- Whether a call failed with the unknown-dimension-size error. -/
def isUnknownDimErr (x : Except Err α) : Bool :=
  match x with
  | .error (.unknownDimensionSize _) => true
  | _ => false

/-- The derived values of a successful `_derive_values`. -/
def valsOf (x : Except Err Known) : Known :=
  match x with
  | .ok k => k
  | .error _ => []

/-- The size table of a successful `dim_sizes` computation. -/
def sizesOf (x : Except Err (List (String × Option Int))) :
    List (String × Option Int) :=
  match x with
  | .ok l => l
  | .error _ => []

/-- Witness for C8 on `engUnsizedDle`: the descriptor blocking over `z`
finds no extent, so `handle` fails with the dimension-identifying error. -/
theorem c8_unresolvable_witness :
    isUnknownDimErr (handle engUnsizedDle [] false) = true := by
  obtain ⟨dn, hdn, _⟩ := c8_unresolvable_dim_size engUnsizedDle [] [] [] false
    (valsOf (deriveValues engUnsizedDle []))
    (sizesOf (handleDimSizes engUnsizedDle
      (valsOf (deriveValues engUnsizedDle []))))
    rfl rfl rfl rfl rfl
  rw [hdn]
  rfl

/-! ### Structural lemmas about construction and key preservation -/

theorem buildArgumentMapper_ok {params : List Provider} {dles : List DleArg}
    {mapper : List Node}
    (h : buildArgumentMapper params dles = .ok mapper) :
    ∃ dpm2, buildDpm params dles = .ok dpm2 ∧
      mapper = tensorArgsOf params
        ++ dpm2.map (fun p => Node.dimParam p.1 p.2)
        ++ dpm2.flatMap (fun p => argVisitDimensionParameter p.1)
        ++ params.filterMap argVisit := by
  rw [buildArgumentMapper] at h
  cases hb : buildDpm params dles with
  | error e => rw [hb] at h; exact Except.noConfusion h
  | ok dpm2 =>
    rw [hb] at h
    injection h with h
    exact ⟨dpm2, rfl, h.symm⟩

theorem mkEngine_ok {params : List Provider} {dles : List DleArg}
    {st : List (Dim × List Int)} {E : Engine}
    (h : mkEngine params dles st = .ok E) :
    ∃ mapper, buildArgumentMapper params dles = .ok mapper ∧
      E.parameters = params ∧ E.dleArgs = dles ∧
      E.arguments = filterOrdered (mapper.filter Node.isArgument) ∧
      E.dims = mapper.filterMap (fun n =>
        match n with
        | .dimParam d deps => some (d, deps)
        | _ => none) := by
  rw [mkEngine] at h
  cases hb : buildArgumentMapper params dles with
  | error e => rw [hb] at h; exact Except.noConfusion h
  | ok mapper =>
    rw [hb] at h
    injection h with h
    exact ⟨mapper, rfl, by rw [← h], by rw [← h], by rw [← h], by rw [← h]⟩

/-- Only `dimParam` nodes survive the dimension-parameter extraction, so
the extraction of the full mapper is exactly the constructed `dpm`. -/
theorem mapper_dims_eq {params : List Provider} {dles : List DleArg}
    {mapper : List Node} (h : buildArgumentMapper params dles = .ok mapper) :
    ∃ dpm2, buildDpm params dles = .ok dpm2 ∧
      mapper.filterMap (fun n =>
        match n with
        | .dimParam d deps => some (d, deps)
        | _ => none) = dpm2 := by
  obtain ⟨dpm2, hd, hm⟩ := buildArgumentMapper_ok h
  refine ⟨dpm2, hd, ?_⟩
  subst hm
  rw [List.filterMap_append, List.filterMap_append, List.filterMap_append]
  have h1 : (tensorArgsOf params).filterMap (fun n =>
      match n with
      | Node.dimParam d deps => some (d, deps)
      | _ => none) = [] := by
    rw [List.filterMap_eq_nil_iff]
    intro a ha
    rw [tensorArgsOf] at ha
    obtain ⟨f, _, hf⟩ := List.mem_map.mp ha
    rw [← hf, argVisitSymbolicFunction]
  have h2 : (dpm2.map (fun p => Node.dimParam p.1 p.2)).filterMap (fun n =>
      match n with
      | Node.dimParam d deps => some (d, deps)
      | _ => none) = dpm2 := by
    rw [List.filterMap_map]
    have : ((fun n =>
        match n with
        | Node.dimParam d deps => some (d, deps)
        | _ => none) ∘ fun p : Dim × List Dep => Node.dimParam p.1 p.2) =
        fun p => some (p.1, p.2) := rfl
    rw [this]
    have : (fun p : Dim × List Dep => some (p.1, p.2)) = some := by
      funext p
      rfl
    rw [this, List.filterMap_some]
  have h3 : (dpm2.flatMap (fun p =>
      argVisitDimensionParameter p.1)).filterMap (fun n =>
      match n with
      | Node.dimParam d deps => some (d, deps)
      | _ => none) = [] := by
    rw [List.filterMap_eq_nil_iff]
    intro a ha
    obtain ⟨p, _, hp⟩ := List.mem_flatMap.mp ha
    rw [argVisitDimensionParameter] at hp
    simp only [List.mem_cons, List.not_mem_nil, or_false] at hp
    rcases hp with h | h | h
    · rw [h]
    · rw [h]
    · rw [h]
  have h4 : (params.filterMap argVisit).filterMap (fun n =>
      match n with
      | Node.dimParam d deps => some (d, deps)
      | _ => none) = [] := by
    rw [List.filterMap_eq_nil_iff]
    intro a ha
    obtain ⟨p, _, hp⟩ := List.mem_filterMap.mp ha
    cases p with
    | function n idx data ch =>
      rw [argVisit] at hp
      injection hp with hp
      rw [← hp, argVisitSymbolicFunction]
    | dimension d => exact Option.noConfusion hp
    | constant n data =>
      rw [argVisit] at hp
      injection hp with hp
      rw [← hp]
    | obj n v =>
      rw [argVisit] at hp
      injection hp with hp
      rw [← hp]
  rw [h1, h2, h3, h4]
  simp

/-- A name occurring in a node list survives the first-occurrence filter. -/
theorem filterOrderedGo_names_mem :
    ∀ (l : List Node) (seen : List String) (n : String),
      n ∈ l.map Node.name → seen.contains n = false →
      n ∈ (filterOrderedGo seen l).map Node.name := by
  intro l
  induction l with
  | nil => intro seen n hn _; simp at hn
  | cons x xs ih =>
    intro seen n hn hs
    rw [List.map_cons, List.mem_cons] at hn
    rw [filterOrderedGo]
    by_cases hx : seen.contains x.name
    · rw [if_pos hx]
      cases hn with
      | inl h => subst h; rw [hx] at hs; exact Bool.noConfusion hs
      | inr h => exact ih seen n h hs
    · rw [if_neg hx]
      rw [List.map_cons, List.mem_cons]
      cases hn with
      | inl h => exact Or.inl h
      | inr h =>
        by_cases hnx : n = x.name
        · exact Or.inl hnx
        · refine Or.inr (ih _ n h ?_)
          rw [List.contains_cons]
          simp only [hs, Bool.or_false]
          simpa using fun hh => hnx (by simpa [eq_comm] using hh)

/-! ### C9 -/

/-- C9: visiting a `DimensionParameter` during graph construction emits
exactly three `ScalarArgument`s, named with the dimension's size, start and
end names, each carrying exactly one `GetsValueFrom` dependency targeting
that `DimensionParameter` node (first conjunct); consequently, in every
successfully constructed engine, each dimension parameter's three scalar
names are among the kernel-visible argument names (second conjunct). -/
theorem c9_dimension_emits_three_scalars :
    (∀ d : Dim,
      (argVisitDimensionParameter d).length = 3 ∧
      (argVisitDimensionParameter d).map Node.name =
        [d.sizeName, d.startName, d.endName] ∧
      ∀ a ∈ argVisitDimensionParameter d, a.isArgument = true ∧
        a.deps = [⟨.getsValueFrom, .dimParam d.name, .noneP⟩]) ∧
    (∀ (params : List Provider) (dles : List DleArg)
      (st : List (Dim × List Int)) (E : Engine),
      mkEngine params dles st = .ok E →
      ∀ p ∈ E.dims,
        p.1.sizeName ∈ E.arguments.map Node.name ∧
        p.1.startName ∈ E.arguments.map Node.name ∧
        p.1.endName ∈ E.arguments.map Node.name) := by
  constructor
  · intro d
    refine ⟨rfl, rfl, ?_⟩
    intro a ha
    rw [argVisitDimensionParameter] at ha
    simp only [List.mem_cons, List.not_mem_nil, or_false] at ha
    rcases ha with h | h | h <;> subst h <;> exact ⟨rfl, rfl⟩
  · intro params dles st E hE p hp
    obtain ⟨mapper, hbm, _, _, hargs, hdims⟩ := mkEngine_ok hE
    obtain ⟨dpm2, hdpm, hflt⟩ := mapper_dims_eq hbm
    obtain ⟨dpm2', hdpm', hm⟩ := buildArgumentMapper_ok hbm
    rw [hdpm] at hdpm'
    injection hdpm' with hdpm'
    subst hdpm'
    rw [hdims, hflt] at hp
    -- each of the three scalar nodes is in the mapper's argument sublist
    have hmem : ∀ a ∈ argVisitDimensionParameter p.1,
        a ∈ mapper.filter Node.isArgument := by
      intro a ha
      rw [List.mem_filter]
      constructor
      · rw [hm]
        refine List.mem_append.mpr (Or.inl ?_)
        refine List.mem_append.mpr (Or.inr ?_)
        exact List.mem_flatMap.mpr ⟨p, hp, ha⟩
      · rw [argVisitDimensionParameter] at ha
        simp only [List.mem_cons, List.not_mem_nil, or_false] at ha
        rcases ha with h | h | h <;> subst h <;> rfl
    have hname : ∀ a ∈ argVisitDimensionParameter p.1,
        a.name ∈ E.arguments.map Node.name := by
      intro a ha
      rw [hargs, filterOrdered]
      refine filterOrderedGo_names_mem _ [] a.name ?_ rfl
      exact List.mem_map.mpr ⟨a, hmem a ha, rfl⟩
    have h1 := hname
      (Node.scalarArg p.1.sizeName
        [⟨.getsValueFrom, .dimParam p.1.name, .noneP⟩])
      (by rw [argVisitDimensionParameter]; exact List.mem_cons_self _ _)
    have h2 := hname
      (Node.scalarArg p.1.startName
        [⟨.getsValueFrom, .dimParam p.1.name, .noneP⟩])
      (by rw [argVisitDimensionParameter]
          exact List.mem_cons.mpr (Or.inr (List.mem_cons_self _ _)))
    have h3 := hname
      (Node.scalarArg p.1.endName
        [⟨.getsValueFrom, .dimParam p.1.name, .noneP⟩])
      (by rw [argVisitDimensionParameter]
          exact List.mem_cons.mpr (Or.inr
            (List.mem_cons.mpr (Or.inr (List.mem_cons_self _ _)))))
    exact ⟨h1, h2, h3⟩

/-- Witness for C9's engine-level conjunct on `engTwoTensors`. -/
theorem c9_witness :
    "x_size" ∈ engTwoTensors.arguments.map Node.name := by
  have hmk : mkEngine
      [.function "u" [dimX] (.tensor [10]),
       .function "v" [dimX] (.tensor [14]),
       .dimension dimX] [] [] = .ok engTwoTensors := rfl
  have hp : (dimX,
      [(⟨.getsValueFrom, .tensorArg "u", .idx 0⟩ : Dep),
       ⟨.getsValueFrom, .tensorArg "v", .idx 0⟩]) ∈ engTwoTensors.dims :=
    List.mem_singleton.mpr rfl
  exact (c9_dimension_emits_three_scalars.2 _ _ _ engTwoTensors hmk _ hp).1

/-! ### C10 -/

theorem filterOrderedGo_map_name :
    ∀ (l : List Node) (seen : List String),
      (filterOrderedGo seen l).map Node.name =
        dedupKeepFirstGo seen (l.map Node.name) := by
  intro l
  induction l with
  | nil => intro seen; rfl
  | cons x xs ih =>
    intro seen
    rw [filterOrderedGo, List.map_cons, dedupKeepFirstGo]
    by_cases hx : seen.contains x.name
    · rw [if_pos hx, if_pos hx]
      exact ih seen
    · rw [if_neg hx, if_neg hx, List.map_cons, ih (x.name :: seen)]

theorem dedupKeepFirstGo_nodup :
    ∀ (l : List String) (seen : List String),
      (dedupKeepFirstGo seen l).Nodup ∧
      ∀ x ∈ dedupKeepFirstGo seen l, seen.contains x = false := by
  intro l
  induction l with
  | nil =>
    intro seen
    exact ⟨List.nodup_nil, by intro x hx; simp [dedupKeepFirstGo] at hx⟩
  | cons a as ih =>
    intro seen
    rw [dedupKeepFirstGo]
    by_cases ha : seen.contains a
    · rw [if_pos ha]
      exact ih seen
    · rw [if_neg ha]
      obtain ⟨hnd, hmem⟩ := ih (a :: seen)
      constructor
      · rw [List.nodup_cons]
        refine ⟨?_, hnd⟩
        intro hmem'
        have := hmem a hmem'
        simp at this
      · intro x hx
        rw [List.mem_cons] at hx
        cases hx with
        | inl h => subst h; exact Bool.eq_false_iff.mpr ha
        | inr h =>
          have := hmem x h
          rw [List.contains_cons] at this
          exact (Bool.or_eq_false_iff.mp this).2

theorem seedArgs_map_fst :
    ∀ (args : List Node) (kw : List (String × Value)),
      (seedArgs args kw).1.map Prod.fst = args := by
  intro args
  induction args with
  | nil => intro kw; rfl
  | cons a rest ih =>
    intro kw
    rw [seedArgs]
    simp only [List.map_cons]
    rw [ih]

theorem setVal_map_fst :
    ∀ (k : Known) (a : Node) (v : Value),
      (setVal a v k).map Prod.fst = k.map Prod.fst := by
  intro k
  induction k with
  | nil => intro a v; rfl
  | cons p rest ih =>
    intro a v
    obtain ⟨n, w⟩ := p
    rw [setVal]
    by_cases hk : n.key = a.key
    · rw [if_pos hk]
      simp
    · rw [if_neg hk]
      simp only [List.map_cons]
      rw [ih]

theorem pass2_map_fst (E : Engine) (fuel : Nat) (dimVals : Known) :
    ∀ (args : List Node) (vals vals2 : Known),
      pass2 E fuel dimVals args vals = .ok vals2 →
      vals2.map Prod.fst = vals.map Prod.fst := by
  intro args
  induction args with
  | nil =>
    intro vals vals2 h
    rw [pass2] at h
    injection h with h
    rw [h]
  | cons a rest ih =>
    intro vals vals2 h
    cases hlk : lookupKnown a.key vals with
    | none =>
      simp only [pass2, hlk] at h
      exact ih vals vals2 h
    | some v =>
      cases v with
      | vnone =>
        simp only [pass2, hlk] at h
        cases hm : mapME (fun dep =>
            getValueDep E.dims fuel a dep (vals ++ dimVals))
            (a.deps.filter Dep.isGvf) with
        | error e => rw [hm] at h; exact Except.noConfusion h
        | ok rs =>
          rw [hm] at h
          match rs, h with
          | [], h => exact Except.noConfusion h
          | [v], h =>
            have := ih (setVal a v vals) vals2 h
            rw [this, setVal_map_fst]
          | v1 :: v2 :: rest', h => exact Except.noConfusion h
      | vint n => simp only [pass2, hlk] at h; exact ih vals vals2 h
      | tensor s => simp only [pass2, hlk] at h; exact ih vals vals2 h
      | composite d c => simp only [pass2, hlk] at h; exact ih vals vals2 h
      | uneval u => simp only [pass2, hlk] at h; exact ih vals vals2 h

theorem settleGo_map_fst :
    ∀ (todo done vals2 : Known),
      settleGo done todo = .ok vals2 →
      vals2.map Prod.fst = done.map Prod.fst ++ todo.map Prod.fst := by
  intro todo
  induction todo with
  | nil =>
    intro done vals2 h
    rw [settleGo] at h
    injection h with h
    rw [h]
    simp
  | cons p rest ih =>
    intro done vals2 h
    obtain ⟨n, v⟩ := p
    cases v with
    | uneval u =>
      simp only [settleGo] at h
      cases he : evalUneval u (done ++ (n, Value.uneval u) :: rest) with
      | error e => rw [he] at h; exact Except.noConfusion h
      | ok v2 =>
        rw [he] at h
        have := ih (done ++ [(n, v2)]) vals2 h
        rw [this]
        simp
    | vnone =>
      simp only [settleGo] at h
      have := ih (done ++ [(n, Value.vnone)]) vals2 h
      rw [this]; simp
    | vint m =>
      simp only [settleGo] at h
      have := ih (done ++ [(n, Value.vint m)]) vals2 h
      rw [this]; simp
    | tensor s =>
      simp only [settleGo] at h
      have := ih (done ++ [(n, Value.tensor s)]) vals2 h
      rw [this]; simp
    | composite d c =>
      simp only [settleGo] at h
      have := ih (done ++ [(n, Value.composite d c)]) vals2 h
      rw [this]; simp

theorem deriveValues_map_fst {E : Engine} {kw : List (String × Value)}
    {vals : Known} (h : deriveValues E kw = .ok vals) :
    vals.map Prod.fst = E.arguments := by
  rw [deriveValues] at h
  by_cases hemp : (seedDims E.dims (seedArgs E.arguments kw).2).2.isEmpty
  · rw [if_pos hemp] at h
    cases hp : pass2 E (E.dims.length + 2)
        (seedDims E.dims (seedArgs E.arguments kw).2).1 E.arguments
        (seedArgs E.arguments kw).1 with
    | error e => rw [hp] at h; exact Except.noConfusion h
    | ok vals2 =>
      rw [hp] at h
      have h1 := settleGo_map_fst vals2 [] vals h
      have h2 := pass2_map_fst E (E.dims.length + 2) _ E.arguments _ vals2 hp
      rw [h1, h2, seedArgs_map_fst]
      simp
  · rw [if_neg hemp] at h
    exact Except.noConfusion h

/-- C10: in every successfully constructed engine, the kernel-visible
argument names are pairwise distinct (first conjunct); the
first-occurrence filter keeps exactly the first node per name in order
(second conjunct, stated over the name lists); and the mapping returned by
`handle` lists exactly those argument names, in that order (third
conjunct). -/
theorem c10_unique_ordered_names (params : List Provider)
    (dles : List DleArg) (st : List (Dim × List Int)) (E : Engine)
    (hE : mkEngine params dles st = .ok E) :
    (E.arguments.map Node.name).Nodup ∧
    (∀ l : List Node,
      (filterOrdered l).map Node.name = dedupKeepFirst (l.map Node.name)) ∧
    (∀ (kwargs : List (String × Value)) (u : Bool)
      (m : List (String × Value)) (b : Bool),
      handle E kwargs u = .ok (m, b) →
      m.map Prod.fst = E.arguments.map Node.name) := by
  obtain ⟨mapper, hbm, _, _, hargs, _⟩ := mkEngine_ok hE
  refine ⟨?_, ?_, ?_⟩
  · rw [hargs, filterOrdered, filterOrderedGo_map_name]
    exact (dedupKeepFirstGo_nodup _ []).1
  · intro l
    rw [filterOrdered, dedupKeepFirst, filterOrderedGo_map_name]
  · intro kwargs u m b h
    simp only [handle, exBind_ok] at h
    obtain ⟨kw1, h1, kw2, h2, vals, h3, sizes, h4, dle, h5, vok, h6, h⟩ := h
    cases vok with
    | false =>
      simp only [Bool.false_eq_true, if_false] at h
      exact Except.noConfusion h
    | true =>
      simp only [if_true] at h
      injection h with h
      have hm : m = vals.map (fun p => (p.1.name, p.2)) := by
        have := congrArg Prod.fst h
        simpa using this.symm
      rw [hm]
      have := deriveValues_map_fst h3
      rw [← this]
      simp

/-- Witness for C10 at `engTwoTensors`. -/
theorem c10_witness :
    (engTwoTensors.arguments.map Node.name).Nodup ∧
    (resOf (handle engTwoTensors [] false)).map Prod.fst =
      engTwoTensors.arguments.map Node.name := by
  have h := c10_unique_ordered_names
    [.function "u" [dimX] (.tensor [10]),
     .function "v" [dimX] (.tensor [14]),
     .dimension dimX] [] [] engTwoTensors rfl
  refine ⟨h.1, ?_⟩
  obtain ⟨m, b, hmb⟩ : ∃ m b, handle engTwoTensors [] false = .ok (m, b) :=
    ⟨_, _, rfl⟩
  rw [hmb]
  exact h.2.2 [] false m b hmb

/-! ### C5 -/

/-- Whether an error is the unknown-arguments rejection of `_derive_values`
(the "Unknown arguments passed" `InvalidArgument`). -/
def Err.isUA : Err → Bool
  | .unknownArguments _ => true
  | _ => false

theorem pyMax_noUA {a b : Value} {e : Err} (h : pyMax a b = .error e) :
    e.isUA = false := by
  cases a <;> cases b <;>
    first
    | exact Except.noConfusion h
    | (injection h with h; rw [← h]; rfl)

theorem reduceMaxGo_noUA :
    ∀ (l : List Value) (acc : Value) (e : Err),
      reduceMaxGo acc l = .error e → e.isUA = false := by
  intro l
  induction l with
  | nil => intro acc e h; exact Except.noConfusion h
  | cons v rest ih =>
    intro acc e h
    rw [reduceMaxGo] at h
    cases hp : pyMax acc v with
    | error e1 =>
      rw [hp] at h
      injection h with h
      rw [← h]
      exact pyMax_noUA hp
    | ok r =>
      rw [hp] at h
      exact ih r e h

theorem reduceMax_noUA {l : List Value} {e : Err}
    (h : reduceMax l = .error e) : e.isUA = false := by
  cases l with
  | nil =>
    rw [reduceMax] at h
    injection h with h
    rw [← h]
    rfl
  | cons v rest =>
    rw [reduceMax] at h
    exact reduceMaxGo_noUA rest v e h

theorem findArgumentByName_noUA {n : String} {kn : Known} {e : Err}
    (h : findArgumentByName n kn = .error e) : e.isUA = false := by
  rw [findArgumentByName] at h
  cases hf : kn.filter (fun p => p.1.name == n) with
  | nil => rw [hf] at h; exact Except.noConfusion h
  | cons p rest =>
    cases rest with
    | nil => rw [hf] at h; exact Except.noConfusion h
    | cons q rest2 =>
      rw [hf] at h
      injection h with h
      rw [← h]
      rfl

theorem runtimeDimExtent_noUA {d : Dim} {kn : Known} {e : Err}
    (h : runtimeDimExtent d kn = .error e) : e.isUA = false := by
  rw [runtimeDimExtent, exBind_error] at h
  cases h with
  | inl h => exact findArgumentByName_noUA h
  | inr h =>
    obtain ⟨ev, _, h⟩ := h
    rw [exBind_error] at h
    cases h with
    | inl h => exact findArgumentByName_noUA h
    | inr h =>
      obtain ⟨sv, _, h⟩ := h
      exact Except.noConfusion h

theorem deriveDleArgumentValue_noUA {cn : String} {kn : Known}
    {desc : DleArg} {e : Err}
    (h : deriveDleArgumentValue cn kn desc = .error e) : e.isUA = false := by
  rw [deriveDleArgumentValue, exBind_error] at h
  cases h with
  | inl h => exact runtimeDimExtent_noUA h
  | inr h =>
    obtain ⟨ext, _, h⟩ := h
    exact Except.noConfusion h

theorem getValueDepBase_noUA {dims : List (Dim × List Dep)} {c : Node}
    {dep : Dep} {kn : Known} {e : Err}
    (h : getValueDepBase dims c dep kn = .inl (.error e)) :
    e.isUA = false := by
  rw [getValueDepBase] at h
  split at h
  · -- funcProvider
    split at h
    · injection h with h; exact Except.noConfusion h
    · injection h with h; injection h with h; rw [← h]; rfl
  · -- constProvider
    injection h with h; exact Except.noConfusion h
  · -- objProvider
    injection h with h; exact Except.noConfusion h
  · -- dleFunction
    split at h
    · injection h with h; exact deriveDleArgumentValue_noUA h
    · injection h with h; injection h with h; rw [← h]; rfl
  · -- dimParam
    split at h
    · exact Sum.noConfusion h
    · injection h with h; injection h with h; rw [← h]; rfl
  · -- tensorArg
    split at h
    · split at h
      · injection h with h; injection h with h; rw [← h]; rfl
      · split at h
        · split at h
          · injection h with h; exact Except.noConfusion h
          · injection h with h; injection h with h; rw [← h]; rfl
        · injection h with h; injection h with h; rw [← h]; rfl
        · injection h with h; injection h with h; rw [← h]; rfl
    · injection h with h; injection h with h; rw [← h]; rfl

theorem mapME_noUA {α β : Type} {f : α → Except Err β} :
    ∀ (l : List α) (e : Err),
      (∀ a ∈ l, ∀ e', f a = .error e' → e'.isUA = false) →
      mapME f l = .error e → e.isUA = false := by
  intro l
  induction l with
  | nil => intro e _ h; exact Except.noConfusion h
  | cons a rest ih =>
    intro e hf h
    rw [mapME] at h
    cases hfa : f a with
    | error e1 =>
      rw [hfa] at h
      injection h with h
      rw [← h]
      exact hf a (List.mem_cons_self a rest) e1 hfa
    | ok b =>
      rw [hfa] at h
      cases hm : mapME f rest with
      | error e2 =>
        rw [hm] at h
        injection h with h
        rw [← h]
        exact ih e2 (fun x hx => hf x (List.mem_cons_of_mem a hx)) hm
      | ok bs => rw [hm] at h; exact Except.noConfusion h

theorem visitDimParam_noUA {dims : List (Dim × List Dep)} :
    ∀ (fuel : Nat) (c : Node) (pd : Dim) (pdeps : List Dep) (kn : Known)
      (e : Err), visitDimParam dims fuel c pd pdeps kn = .error e →
      e.isUA = false := by
  intro fuel
  induction fuel with
  | zero =>
    intro c pd pdeps kn e h
    rw [visitDimParam] at h
    injection h with h
    rw [← h]
    rfl
  | succ f ih =>
    intro c pd pdeps kn e h
    rw [visitDimParam] at h
    by_cases hs : c.name = pd.startName
    · rw [if_pos hs] at h; exact Except.noConfusion h
    · rw [if_neg hs] at h
      rw [exBind_error] at h
      cases h with
      | inl h =>
        refine mapME_noUA _ e ?_ h
        intro dep _ e' hdep
        cases hb : getValueDepBase dims (Node.dimParam pd pdeps) dep kn with
        | inl r =>
          rw [hb] at hdep
          cases r with
          | error e2 =>
            injection hdep with hdep
            rw [← hdep]
            exact getValueDepBase_noUA (by rw [hb])
          | ok v => exact Except.noConfusion hdep
        | inr p =>
          rw [hb] at hdep
          exact ih (Node.dimParam pd pdeps) p.1 p.2 kn e' hdep
      | inr h =>
        obtain ⟨provided0, _, h⟩ := h
        cases hov : lookupKnown (.dim pd.name) kn with
        | some v =>
          simp only [hov] at h
          by_cases hvv : (!v.isUneval && !v.isNone) = true
          · rw [if_pos hvv] at h
            exact Except.noConfusion h
          · rw [if_neg hvv] at h
            split at h
            · exact Except.noConfusion h
            · exact Except.noConfusion h
            · split at h
              · exact reduceMax_noUA h
              · exact Except.noConfusion h
        | none =>
          simp only [hov] at h
          split at h
          · exact Except.noConfusion h
          · exact Except.noConfusion h
          · split at h
            · exact reduceMax_noUA h
            · exact Except.noConfusion h

theorem getValueDep_noUA {dims : List (Dim × List Dep)} {fuel : Nat}
    {c : Node} {dep : Dep} {kn : Known} {e : Err}
    (h : getValueDep dims fuel c dep kn = .error e) : e.isUA = false := by
  rw [getValueDep] at h
  cases hb : getValueDepBase dims c dep kn with
  | inl r =>
    rw [hb] at h
    cases r with
    | error e2 =>
      injection h with h
      rw [← h]
      exact getValueDepBase_noUA (by rw [hb])
    | ok v => exact Except.noConfusion h
  | inr p =>
    rw [hb] at h
    exact visitDimParam_noUA fuel c p.1 p.2 kn e h

theorem pass2_noUA {E : Engine} {fuel : Nat} {dimVals : Known} :
    ∀ (args : List Node) (vals : Known) (e : Err),
      pass2 E fuel dimVals args vals = .error e → e.isUA = false := by
  intro args
  induction args with
  | nil => intro vals e h; exact Except.noConfusion h
  | cons a rest ih =>
    intro vals e h
    cases hlk : lookupKnown a.key vals with
    | none => simp only [pass2, hlk] at h; exact ih vals e h
    | some v =>
      cases v with
      | vnone =>
        simp only [pass2, hlk] at h
        rw [exBind_error] at h
        cases h with
        | inl h =>
          refine mapME_noUA _ e ?_ h
          intro dep _ e' hdep
          exact getValueDep_noUA hdep
        | inr h =>
          obtain ⟨provided, _, h⟩ := h
          cases provided with
          | nil =>
            injection h with h
            rw [← h]
            rfl
          | cons v1 rest1 =>
            cases rest1 with
            | nil => exact ih _ e h
            | cons v2 rest2 =>
              injection h with h
              rw [← h]
              rfl
      | vint n => simp only [pass2, hlk] at h; exact ih vals e h
      | tensor s => simp only [pass2, hlk] at h; exact ih vals e h
      | composite d ch => simp only [pass2, hlk] at h; exact ih vals e h
      | uneval u => simp only [pass2, hlk] at h; exact ih vals e h

theorem evalUneval_noUA {u : UnevalDep} {kn : Known} {e : Err}
    (h : evalUneval u kn = .error e) : e.isUA = false := by
  cases u with
  | lateEval cn ua ps =>
    rw [evalUneval] at h
    exact reduceMax_noUA h
  | deriveDle cn desc =>
    rw [evalUneval] at h
    exact deriveDleArgumentValue_noUA h

theorem settleGo_noUA :
    ∀ (todo done : Known) (e : Err),
      settleGo done todo = .error e → e.isUA = false := by
  intro todo
  induction todo with
  | nil => intro done e h; exact Except.noConfusion h
  | cons p rest ih =>
    intro done e h
    obtain ⟨n, v⟩ := p
    cases v with
    | uneval u =>
      simp only [settleGo] at h
      rw [exBind_error] at h
      cases h with
      | inl h => exact evalUneval_noUA h
      | inr h =>
        obtain ⟨v2, _, h⟩ := h
        exact ih _ e h
    | vnone => simp only [settleGo] at h; exact ih _ e h
    | vint m => simp only [settleGo] at h; exact ih _ e h
    | tensor s => simp only [settleGo] at h; exact ih _ e h
    | composite d ch => simp only [settleGo] at h; exact ih _ e h

theorem handleDimSizes_noUA {E : Engine} {vals : Known} {e : Err}
    (h : handleDimSizes E vals = .error e) : e.isUA = false := by
  rw [handleDimSizes, exBind_error] at h
  cases h with
  | inl h =>
    refine mapME_noUA _ e ?_ h
    intro d _ e' hd
    rw [exBind_error] at hd
    cases hd with
    | inl hd => exact runtimeDimExtent_noUA hd
    | inr hd =>
      obtain ⟨ext, _, hd⟩ := hd
      exact Except.noConfusion hd
  | inr h =>
    obtain ⟨l, _, h⟩ := h
    exact Except.noConfusion h

theorem dleArgumentsGo_noUA {sizes : List (String × Option Int)} :
    ∀ (descs : List DleArg) (m : List (String × Value)) (auto : Bool)
      (e : Err), dleArgumentsGo sizes descs m auto = .error e →
      e.isUA = false := by
  intro descs
  induction descs with
  | nil => intro m auto e h; exact Except.noConfusion h
  | cons d rest ih =>
    intro m auto e h
    rw [dleArgumentsGo] at h
    cases hl : (sizes.lookup d.originalDim.name).getD none with
    | none =>
      rw [hl] at h
      injection h with h
      rw [← h]
      rfl
    | some n =>
      rw [hl] at h
      cases hv : d.value with
      | noneV =>
        rw [hv] at h
        simp only [SizingValue.truthy, Bool.false_eq_true, if_false] at h
        exact ih _ _ e h
      | func f =>
        rw [hv] at h
        simp only [SizingValue.truthy, if_true] at h
        exact ih _ _ e h
      | fixed k =>
        rw [hv] at h
        by_cases hk : k = 0
        · subst hk
          simp only [SizingValue.truthy, bne_self_eq_false,
            Bool.false_eq_true, if_false] at h
          exact ih _ _ e h
        · have hkb : (k != 0) = true := by simpa using hk
          simp only [SizingValue.truthy, hkb, if_true] at h
          exact ih _ _ e h

theorem verifyValuesGo_noUA :
    ∀ (vals : Known) (acc : Bool) (e : Err),
      verifyValuesGo acc vals = .error e → e.isUA = false := by
  intro vals
  induction vals with
  | nil => intro acc e h; exact Except.noConfusion h
  | cons p rest ih =>
    intro acc e h
    rw [verifyValuesGo] at h
    cases acc with
    | false =>
      simp only [Bool.false_eq_true, if_false] at h
      exact ih false e h
    | true =>
      simp only [if_true] at h
      by_cases hv : (p.1.deps.filter Dep.isVerifiedBy).isEmpty = true
      · rw [if_pos hv] at h
        exact ih true e h
      · rw [if_neg hv] at h
        injection h with h
        rw [← h]
        rfl

theorem beqStrComm (a b : String) : (a == b) = (b == a) := by
  by_cases hab : a = b
  · subst hab; rfl
  · rw [beq_eq_false_iff_ne.mpr hab, beq_eq_false_iff_ne.mpr (Ne.symm hab)]

theorem popKey_snd (k : String) :
    ∀ kw : List (String × Value), (kw.map Prod.fst).Nodup →
      (popKey k kw).2 = kw.filter (fun p => !(p.1 == k)) := by
  intro kw
  induction kw with
  | nil => intro _; rfl
  | cons p rest ih =>
    intro hnd
    obtain ⟨k1, v1⟩ := p
    rw [List.map_cons, List.nodup_cons] at hnd
    rw [popKey, List.filter_cons]
    by_cases hk : k1 = k
    · subst hk
      rw [if_pos rfl]
      simp only [beq_self_eq_true, Bool.not_true, Bool.false_eq_true,
        if_false]
      symm
      rw [List.filter_eq_self]
      intro p hp
      have : p.1 ≠ k1 := by
        intro hpk
        exact hnd.1 (hpk ▸ List.mem_map.mpr ⟨p, hp, rfl⟩)
      simpa using this
    · rw [if_neg hk]
      have hb : (k1 == k) = false := beq_eq_false_iff_ne.mpr hk
      simp only [hb, Bool.not_false, if_true]
      rw [ih hnd.2]

theorem seedArgs_snd :
    ∀ (args : List Node) (kw : List (String × Value)),
      (kw.map Prod.fst).Nodup →
      (seedArgs args kw).2 =
        kw.filter (fun p => !((args.map Node.name).contains p.1)) := by
  intro args
  induction args with
  | nil =>
    intro kw _
    rw [seedArgs]
    symm
    rw [List.filter_eq_self]
    intro p _
    rfl
  | cons a rest ih =>
    intro kw hnd
    rw [seedArgs]
    have hpop := popKey_snd a.name kw hnd
    have hnd2 : (((popKey a.name kw).2).map Prod.fst).Nodup := by
      rw [hpop]
      exact hnd.sublist ((List.filter_sublist _).map Prod.fst)
    rw [ih _ hnd2, hpop, List.filter_filter]
    congr 1
    funext p
    rw [List.map_cons, List.contains_cons, beqStrComm p.1 a.name]
    cases h1 : (a.name == p.1) <;>
      cases h2 : (rest.map Node.name).contains p.1 <;> rfl

theorem seedDims_snd :
    ∀ (dims : List (Dim × List Dep)) (kw : List (String × Value)),
      (kw.map Prod.fst).Nodup →
      (seedDims dims kw).2 =
        kw.filter (fun p =>
          !((dims.map (fun q => q.1.name)).contains p.1)) := by
  intro dims
  induction dims with
  | nil =>
    intro kw _
    rw [seedDims]
    symm
    rw [List.filter_eq_self]
    intro p _
    rfl
  | cons d rest ih =>
    intro kw hnd
    rw [seedDims]
    have hpop := popKey_snd d.1.name kw hnd
    have hnd2 : (((popKey d.1.name kw).2).map Prod.fst).Nodup := by
      rw [hpop]
      exact hnd.sublist ((List.filter_sublist _).map Prod.fst)
    rw [ih _ hnd2, hpop, List.filter_filter]
    congr 1
    funext p
    rw [List.map_cons, List.contains_cons, beqStrComm p.1 d.1.name]
    cases h1 : (d.1.name == p.1) <;>
      cases h2 : ((rest.map (fun q => q.1.name)).contains p.1) <;> rfl

theorem offsetAdjust_plain :
    ∀ (kw : List (String × Value)) (offs : List (String × Int)),
      (∀ p ∈ kw, p.2.isPlain = true) →
      (∀ p ∈ kw, (offs.lookup p.1).isSome = true →
        (∃ n, p.2 = Value.vint n) ∨ ∃ s, p.2 = Value.tensor s) →
      ∃ kw1, offsetAdjust offs kw = .ok kw1 ∧
        kw1.map Prod.fst = kw.map Prod.fst ∧
        ∀ p ∈ kw1, p.2.isPlain = true := by
  intro kw
  induction kw with
  | nil =>
    intro offs _ _
    exact ⟨[], rfl, rfl, by intro p hp; simp at hp⟩
  | cons q rest ih =>
    intro offs hplain haddable
    obtain ⟨k, v⟩ := q
    obtain ⟨kw1, h1, h2, h3⟩ := ih offs
      (fun p hp => hplain p (List.mem_cons_of_mem _ hp))
      (fun p hp => haddable p (List.mem_cons_of_mem _ hp))
    cases ho : offs.lookup k with
    | none =>
      refine ⟨(k, v) :: kw1, ?_, ?_, ?_⟩
      · simp only [offsetAdjust, ho, h1, exBind]
      · simp only [List.map_cons, h2]
      · intro p hp
        rcases List.mem_cons.mp hp with hh | hh
        · subst hh; exact hplain (k, v) (List.mem_cons_self _ _)
        · exact h3 p hh
    | some w =>
      have hv := haddable (k, v) (List.mem_cons_self _ _) (by rw [ho]; rfl)
      rcases hv with ⟨n, hn⟩ | ⟨s, hs⟩
      · subst hn
        refine ⟨(k, Value.vint (n + w)) :: kw1, ?_, ?_, ?_⟩
        · simp only [offsetAdjust, ho, h1, exBind, pyAdd]
        · simp only [List.map_cons, h2]
        · intro p hp
          rcases List.mem_cons.mp hp with hh | hh
          · subst hh; rfl
          · exact h3 p hh
      · subst hs
        refine ⟨(k, Value.tensor s) :: kw1, ?_, ?_, ?_⟩
        · simp only [offsetAdjust, ho, h1, exBind, pyAdd]
        · simp only [List.map_cons, h2]
        · intro p hp
          rcases List.mem_cons.mp hp with hh | hh
          · subst hh; rfl
          · exact h3 p hh

theorem collectComposites_plain :
    ∀ (kw : List (String × Value)) (params : List Provider),
      (∀ p ∈ kw, p.2.isPlain = true) →
      collectComposites params kw = .ok [] := by
  intro kw
  induction kw with
  | nil => intro params _; rfl
  | cons q rest ih =>
    intro params hplain
    obtain ⟨k, v⟩ := q
    have hv := hplain (k, v) (List.mem_cons_self _ _)
    have hrest := fun p hp => hplain p (List.mem_cons_of_mem _ hp)
    cases v with
    | composite d ch => exact Bool.noConfusion hv
    | vnone => exact ih params hrest
    | vint n => exact ih params hrest
    | tensor s => exact ih params hrest
    | uneval u => exact Bool.noConfusion hv

theorem extractComposites_plain (params : List Provider)
    (kw : List (String × Value)) (h : ∀ p ∈ kw, p.2.isPlain = true) :
    extractComposites params kw = .ok kw := by
  rw [extractComposites, collectComposites_plain kw params h]
  rfl

/-- C5: if any supplied key matches neither a kernel-visible argument name
nor a dimension-parameter name, `handle` raises the unknown-arguments
`InvalidArgument` (carrying the unconsumed keys) and returns no result;
conversely, when every supplied key is consumed by an argument or a
dimension, that error is never raised.  Hypotheses: keys unique (a Python
dict), values plain, and values addable where a halo offset applies. -/
theorem c5_unknown_argument_rejection (E : Engine)
    (kwargs : List (String × Value)) (u : Bool)
    (hnd : (kwargs.map Prod.fst).Nodup)
    (hplain : ∀ p ∈ kwargs, p.2.isPlain = true)
    (haddable : ∀ p ∈ kwargs, (E.offsets.lookup p.1).isSome = true →
      (∃ n, p.2 = Value.vint n) ∨ ∃ s, p.2 = Value.tensor s) :
    ((∃ p ∈ kwargs, ¬p.1 ∈ E.arguments.map Node.name ∧
        ¬p.1 ∈ E.dims.map (fun q => q.1.name)) →
      ∃ ks, handle E kwargs u = .error (.unknownArguments ks) ∧ ks ≠ []) ∧
    ((∀ p ∈ kwargs, p.1 ∈ E.arguments.map Node.name ∨
        p.1 ∈ E.dims.map (fun q => q.1.name)) →
      ∀ ks, handle E kwargs u ≠ .error (.unknownArguments ks)) := by
  obtain ⟨kw1, hoa, hkeys, hplain1⟩ :=
    offsetAdjust_plain kwargs E.offsets hplain haddable
  have hex : extractComposites E.parameters kw1 = .ok kw1 :=
    extractComposites_plain _ _ hplain1
  have hnd1 : (kw1.map Prod.fst).Nodup := by rw [hkeys]; exact hnd
  have hleft : (seedDims E.dims (seedArgs E.arguments kw1).2).2 =
      kw1.filter (fun p =>
        !((E.dims.map (fun q => q.1.name)).contains p.1) &&
        !((E.arguments.map Node.name).contains p.1)) := by
    have h1 := seedArgs_snd E.arguments kw1 hnd1
    have hnd2 : (((seedArgs E.arguments kw1).2).map Prod.fst).Nodup := by
      rw [h1]
      exact hnd1.sublist ((List.filter_sublist _).map Prod.fst)
    rw [seedDims_snd E.dims _ hnd2, h1, List.filter_filter]
  constructor
  · rintro ⟨p, hpmem, hparg, hpdim⟩
    have hpk : p.1 ∈ kw1.map Prod.fst := by
      rw [hkeys]
      exact List.mem_map.mpr ⟨p, hpmem, rfl⟩
    obtain ⟨p', hp'mem, hp'key⟩ := List.mem_map.mp hpk
    have hp'in : p' ∈ (seedDims E.dims (seedArgs E.arguments kw1).2).2 := by
      rw [hleft]
      refine List.mem_filter.mpr ⟨hp'mem, ?_⟩
      have hc1 : (E.arguments.map Node.name).contains p'.1 = false := by
        cases hc : (E.arguments.map Node.name).contains p'.1 with
        | false => rfl
        | true =>
          exact absurd (hp'key ▸ List.mem_of_elem_eq_true hc) hparg
      have hc2 :
          (E.dims.map (fun q => q.1.name)).contains p'.1 = false := by
        cases hc : (E.dims.map (fun q => q.1.name)).contains p'.1 with
        | false => rfl
        | true =>
          exact absurd (hp'key ▸ List.mem_of_elem_eq_true hc) hpdim
      rw [hc1, hc2]
      rfl
    have hne : (seedDims E.dims (seedArgs E.arguments kw1).2).2 ≠ [] := by
      intro hnil
      rw [hnil] at hp'in
      exact absurd hp'in (List.not_mem_nil p')
    have hdv : deriveValues E kw1 = .error (.unknownArguments
        ((seedDims E.dims (seedArgs E.arguments kw1).2).2.map Prod.fst)) := by
      rw [deriveValues]
      rw [if_neg (by simpa [List.isEmpty_iff] using hne)]
    refine ⟨(seedDims E.dims
      (seedArgs E.arguments kw1).2).2.map Prod.fst, ?_, ?_⟩
    · simp only [handle, hoa, hex, exBind, hdv]
    · intro hks
      rw [List.map_eq_nil_iff] at hks
      exact hne hks
  · intro hall ks hcontra
    have hempty : (seedDims E.dims (seedArgs E.arguments kw1).2).2 = [] := by
      rw [hleft, List.filter_eq_nil_iff]
      intro p hp
      have hpk : p.1 ∈ kwargs.map Prod.fst := by
        rw [← hkeys]
        exact List.mem_map.mpr ⟨p, hp, rfl⟩
      obtain ⟨q, hqmem, hqkey⟩ := List.mem_map.mp hpk
      rcases hall q hqmem with hq | hq
      · have hct : (E.arguments.map Node.name).contains p.1 = true :=
          List.elem_eq_true_of_mem (hqkey ▸ hq)
        simp only [hct, Bool.not_true, Bool.and_false]
        exact fun hff => Bool.noConfusion hff
      · have hct : (E.dims.map (fun q => q.1.name)).contains p.1 = true :=
          List.elem_eq_true_of_mem (hqkey ▸ hq)
        simp only [hct, Bool.not_true, Bool.false_and]
        exact fun hff => Bool.noConfusion hff
    simp only [handle, exBind_error] at hcontra
    rcases hcontra with hc | ⟨kw1', hkw1', hc⟩
    · rw [hoa] at hc; exact Except.noConfusion hc
    · rw [hoa] at hkw1'
      injection hkw1' with hkw1'
      subst hkw1'
      rcases hc with hc | ⟨kw2', hkw2', hc⟩
      · rw [hex] at hc; exact Except.noConfusion hc
      · rw [hex] at hkw2'
        injection hkw2' with hkw2'
        subst hkw2'
        rcases hc with hc | ⟨vals, hvals, hc⟩
        · rw [deriveValues,
            if_pos (by rw [hempty]; rfl), exBind_error] at hc
          rcases hc with hc | ⟨vals2, _, hc⟩
          · exact Bool.noConfusion (pass2_noUA _ _ _ hc)
          · exact Bool.noConfusion (settleGo_noUA _ _ _ hc)
        · rcases hc with hc | ⟨sizes, hsizes, hc⟩
          · exact Bool.noConfusion (handleDimSizes_noUA hc)
          · rcases hc with hc | ⟨dle, hdle, hc⟩
            · rw [dleArguments] at hc
              exact Bool.noConfusion (dleArgumentsGo_noUA _ _ _ _ hc)
            · rcases hc with hc | ⟨vok, hvok, hc⟩
              · rw [verifyValues] at hc
                exact Bool.noConfusion (verifyValuesGo_noUA _ _ _ hc)
              · cases vok with
                | true =>
                  rw [if_pos rfl] at hc
                  exact Except.noConfusion hc
                | false =>
                  simp only [Bool.false_eq_true, if_false] at hc
                  injection hc with hc
                  exact Err.noConfusion hc

/-- Witness for C5: the extra key "bogus" is rejected on `engTwoTensors`. -/
theorem c5_unknown_argument_witness :
    isOkB (handle engTwoTensors [("bogus", Value.vint 1)] false) = false := by
  obtain ⟨ks, hks, _⟩ :=
    (c5_unknown_argument_rejection engTwoTensors
      [("bogus", Value.vint 1)] false (by simp)
      (by intro p hp
          rw [List.mem_singleton] at hp
          subst hp
          rfl)
      (by intro p hp hs
          exact Bool.noConfusion hs)).1
    ⟨("bogus", Value.vint 1), List.mem_singleton.mpr rfl,
      by decide, by decide⟩
  rw [hks]
  rfl

/-! ### C2, amended part -/

/-- Dependency targets that cannot produce a deferred value: everything
except the tiling evaluator, with concrete (non-deferred) provider data. -/
def DepTarget.okForC2 : DepTarget → Bool
  | .dleFunction => false
  | .funcProvider d => !d.isUneval
  | .constProvider d => !d.isUneval
  | .objProvider v => !v.isUneval
  | .tensorArg _ => true
  | .dimParam _ => true

/-- Every dimension parameter's dependencies are tensor-shape-backed. -/
def Engine.tensorOnlyDims (E : Engine) : Bool :=
  E.dims.all fun p => p.2.all fun dep => dep.target.isTensorArg

/-- Every kernel-visible argument's dependencies are benign. -/
def Engine.benignArgDeps (E : Engine) : Bool :=
  E.arguments.all fun a => a.deps.all fun dep => dep.target.okForC2

theorem mapME_mem_ok {α β : Type} {f : α → Except Err β} :
    ∀ {l : List α} {rs : List β}, mapME f l = .ok rs →
      ∀ b ∈ rs, ∃ a ∈ l, f a = .ok b := by
  intro l
  induction l with
  | nil =>
    intro rs h b hb
    rw [mapME] at h
    injection h with h
    rw [← h] at hb
    exact absurd hb (List.not_mem_nil b)
  | cons a rest ih =>
    intro rs h b hb
    rw [mapME] at h
    cases hfa : f a with
    | error e => rw [hfa] at h; exact Except.noConfusion h
    | ok b0 =>
      rw [hfa] at h
      cases hm : mapME f rest with
      | error e => rw [hm] at h; exact Except.noConfusion h
      | ok bs =>
        rw [hm] at h
        injection h with h
        rw [← h] at hb
        rcases List.mem_cons.mp hb with hh | hh
        · exact ⟨a, List.mem_cons_self a rest, by rw [hfa, hh]⟩
        · obtain ⟨a', ha', hfa'⟩ := ih hm b hh
          exact ⟨a', List.mem_cons_of_mem a ha', hfa'⟩

/-- Case analysis of the base visitor dispatch. -/
theorem getValueDepBase_cases {dims : List (Dim × List Dep)} {c : Node}
    {dep : Dep} {kn : Known} :
    (∃ e, getValueDepBase dims c dep kn = .inl (.error e)) ∨
    (∃ v, getValueDepBase dims c dep kn = .inl (.ok v) ∧
      ((∃ d, dep.target = .funcProvider d ∧ v = d) ∨
       (∃ d, dep.target = .constProvider d ∧ v = d) ∨
       (∃ d, dep.target = .objProvider d ∧ v = d) ∨
       (∃ tn z, dep.target = .tensorArg tn ∧ v = .vint z) ∨
       dep.target = .dleFunction)) ∨
    (∃ p, getValueDepBase dims c dep kn = .inr p ∧ p ∈ dims ∧
      ∃ dn, dep.target = .dimParam dn) := by
  rw [getValueDepBase]
  split
  · -- funcProvider
    rename_i data heq
    split
    · exact Or.inr (Or.inl ⟨data, rfl, Or.inl ⟨data, heq, rfl⟩⟩)
    · exact Or.inl ⟨.assertionError, rfl⟩
  · -- constProvider
    rename_i data heq
    exact Or.inr (Or.inl ⟨data, rfl, Or.inr (Or.inl ⟨data, heq, rfl⟩)⟩)
  · -- objProvider
    rename_i v heq
    exact Or.inr (Or.inl ⟨v, rfl, Or.inr (Or.inr (Or.inl ⟨v, heq, rfl⟩))⟩)
  · -- dleFunction
    rename_i heq
    split
    · rename_i desc hp
      cases hd : deriveDleArgumentValue c.name kn desc with
      | error e => exact Or.inl ⟨e, rfl⟩
      | ok v =>
        exact Or.inr (Or.inl ⟨v, rfl, Or.inr (Or.inr (Or.inr
          (Or.inr heq)))⟩)
    · exact Or.inl ⟨.attributeError, rfl⟩
  · -- dimParam
    rename_i dn heq
    split
    · rename_i p hf
      exact Or.inr (Or.inr ⟨p, rfl, List.mem_of_find?_eq_some hf,
        dn, heq⟩)
    · exact Or.inl ⟨.keyError, rfl⟩
  · -- tensorArg
    rename_i tn heq
    split
    · split
      · exact Or.inl ⟨.keyError, rfl⟩
      · split
        · split
          · rename_i s hg
            exact Or.inr (Or.inl ⟨_, rfl, Or.inr (Or.inr (Or.inr
              (Or.inl ⟨tn, s, heq, rfl⟩)))⟩)
          · exact Or.inl ⟨.indexError, rfl⟩
        · exact Or.inl ⟨.typeError, rfl⟩
        · exact Or.inl ⟨.attributeError, rfl⟩
    · exact Or.inl ⟨.assertionError, rfl⟩

theorem pyMax_ok_int {a b v : Value} (h : pyMax a b = .ok v) :
    ∃ z, v = .vint z := by
  cases a <;> cases b <;>
    first
    | exact Except.noConfusion h
    | (injection h with h; exact ⟨_, h.symm⟩)

theorem reduceMaxGo_ok :
    ∀ (l : List Value) (acc v : Value), reduceMaxGo acc l = .ok v →
      v = acc ∨ ∃ z, v = .vint z := by
  intro l
  induction l with
  | nil =>
    intro acc v h
    rw [reduceMaxGo] at h
    injection h with h
    exact Or.inl h.symm
  | cons x rest ih =>
    intro acc v h
    rw [reduceMaxGo] at h
    cases hp : pyMax acc x with
    | error e => rw [hp] at h; exact Except.noConfusion h
    | ok r =>
      rw [hp] at h
      rcases ih r v h with hh | hh
      · obtain ⟨z, hz⟩ := pyMax_ok_int hp
        exact Or.inr ⟨z, by rw [hh, hz]⟩
      · exact Or.inr hh

/-- Under tensor-only dependencies, a successful dimension-parameter
resolution never yields a deferred value. -/
theorem visitDimParam_tensorOnly {dims : List (Dim × List Dep)} :
    ∀ (fuel : Nat) (c : Node) (pd : Dim) (pdeps : List Dep) (kn : Known)
      (v : Value),
      pdeps.all (fun dep => dep.target.isTensorArg) = true →
      visitDimParam dims fuel c pd pdeps kn = .ok v →
      v.isUneval = false := by
  intro fuel c pd pdeps kn v hdeps h
  cases fuel with
  | zero => rw [visitDimParam] at h; exact Except.noConfusion h
  | succ f =>
    rw [visitDimParam] at h
    by_cases hs : c.name = pd.startName
    · rw [if_pos hs] at h
      injection h with h
      rw [← h]
      rfl
    · rw [if_neg hs] at h
      rw [exBind_ok] at h
      obtain ⟨provided0, hmap, hcont⟩ := h
      have hint : ∀ x ∈ provided0, ∃ z, x = Value.vint z := by
        intro x hx
        obtain ⟨dep, hdep, hfx⟩ := mapME_mem_ok hmap x hx
        have htarget : dep.target.isTensorArg = true :=
          List.all_eq_true.mp hdeps dep (List.mem_of_mem_filter hdep)
        rcases @getValueDepBase_cases dims (Node.dimParam pd pdeps)
            dep kn with
          ⟨e, hb⟩ | ⟨v0, hb, hcase⟩ | ⟨p, hb, _, dn, htn⟩
        · rw [hb] at hfx; exact Except.noConfusion hfx
        · rw [hb] at hfx
          injection hfx with hfx
          subst hfx
          rcases hcase with ⟨d, ht, _⟩ | ⟨d, ht, _⟩ | ⟨d, ht, _⟩ |
            ⟨tn, z, ht, hv⟩ | ht <;>
            rw [ht] at htarget <;>
            first
            | exact Bool.noConfusion htarget
            | exact ⟨z, hv⟩
        · rw [htn] at htarget
          exact Bool.noConfusion htarget
      cases hov : lookupKnown (.dim pd.name) kn with
      | some w =>
        simp only [hov] at hcont
        by_cases hvv : (!w.isUneval && !w.isNone) = true
        · rw [if_pos hvv] at hcont
          injection hcont with hcont
          rw [← hcont]
          exact Bool.eq_false_iff.mpr (fun hw => by simp [hw] at hvv)
        · rw [if_neg hvv] at hcont
          split at hcont
          · injection hcont with hcont
            rw [← hcont]
            rfl
          · rename_i x0 v1
            injection hcont with hcont
            rw [← hcont]
            obtain ⟨z, hz⟩ := hint v1 (List.mem_cons_self _ _)
            rw [hz]
            rfl
          · rename_i x0 v1 v2 rest2
            have hall : ((v1 :: v2 :: rest2).all
                fun x => !x.isNone) = true := by
              rw [List.all_eq_true]
              intro x hx
              obtain ⟨z, hz⟩ := hint x hx
              rw [hz]
              rfl
            rw [if_pos hall, reduceMax] at hcont
            rcases reduceMaxGo_ok _ _ _ hcont with hh | ⟨z, hz⟩
            · obtain ⟨z, hz⟩ := hint v1 (List.mem_cons_self _ _)
              rw [hh, hz]
              rfl
            · rw [hz]
              rfl
      | none =>
        simp only [hov] at hcont
        split at hcont
        · injection hcont with hcont
          rw [← hcont]
          rfl
        · rename_i v1 heqp
          injection hcont with hcont
          rw [← hcont]
          obtain ⟨z, hz⟩ := hint v1
            (by rw [heqp]; exact List.mem_cons_self _ _)
          rw [hz]
          rfl
        · rename_i v1 v2 rest2 heqp
          have hall : ((v1 :: v2 :: rest2).all
              fun x => !x.isNone) = true := by
            rw [List.all_eq_true]
            intro x hx
            obtain ⟨z, hz⟩ := hint x (by rw [heqp]; exact hx)
            rw [hz]
            rfl
          rw [if_pos hall, reduceMax] at hcont
          rcases reduceMaxGo_ok _ _ _ hcont with hh | ⟨z, hz⟩
          · obtain ⟨z, hz⟩ := hint v1
              (by rw [heqp]; exact List.mem_cons_self _ _)
            rw [hh, hz]
            rfl
          · rw [hz]
            rfl

/-- Under tensor-only dimension dependencies and a benign target, a
successful dependency resolution never yields a deferred value. -/
theorem getValueDep_benign {dims : List (Dim × List Dep)} {fuel : Nat}
    {c : Node} {dep : Dep} {kn : Known} {v : Value}
    (hdims : dims.all (fun p => p.2.all fun d => d.target.isTensorArg) = true)
    (hok : dep.target.okForC2 = true)
    (h : getValueDep dims fuel c dep kn = .ok v) : v.isUneval = false := by
  rw [getValueDep] at h
  rcases @getValueDepBase_cases dims c dep kn with
    ⟨e, hb⟩ | ⟨v0, hb, hcase⟩ | ⟨p, hb, hp, dn, htn⟩
  · rw [hb] at h
    exact Except.noConfusion h
  · rw [hb] at h
    injection h with h
    subst h
    rcases hcase with ⟨d, ht, hv⟩ | ⟨d, ht, hv⟩ | ⟨d, ht, hv⟩ |
      ⟨tn, z, ht, hv⟩ | ht
    · rw [ht, DepTarget.okForC2] at hok
      rw [hv]
      exact Bool.eq_false_iff.mpr (fun hu => by rw [hu] at hok; simp at hok)
    · rw [ht, DepTarget.okForC2] at hok
      rw [hv]
      exact Bool.eq_false_iff.mpr (fun hu => by rw [hu] at hok; simp at hok)
    · rw [ht, DepTarget.okForC2] at hok
      rw [hv]
      exact Bool.eq_false_iff.mpr (fun hu => by rw [hu] at hok; simp at hok)
    · rw [hv]
      rfl
    · rw [ht] at hok
      exact Bool.noConfusion hok
  · rw [hb] at h
    have hpd : p.2.all (fun d => d.target.isTensorArg) = true :=
      List.all_eq_true.mp hdims p hp
    exact visitDimParam_tensorOnly fuel c p.1 p.2 kn v hpd h

theorem popKey_val_mem (k : String) :
    ∀ (kw : List (String × Value)) (v : Value),
      (popKey k kw).1 = some v → ∃ p ∈ kw, p.2 = v := by
  intro kw
  induction kw with
  | nil => intro v h; exact Option.noConfusion h
  | cons q rest ih =>
    intro v h
    obtain ⟨k1, v1⟩ := q
    rw [popKey] at h
    by_cases hk : k1 = k
    · rw [if_pos hk] at h
      injection h with h
      exact ⟨(k1, v1), List.mem_cons_self _ _, h⟩
    · rw [if_neg hk] at h
      obtain ⟨p, hp, hpv⟩ := ih v h
      exact ⟨p, List.mem_cons_of_mem _ hp, hpv⟩

theorem popKey_snd_mem (k : String) :
    ∀ (kw : List (String × Value)) (p : String × Value),
      p ∈ (popKey k kw).2 → p ∈ kw := by
  intro kw
  induction kw with
  | nil => intro p h; exact absurd h (List.not_mem_nil p)
  | cons q rest ih =>
    intro p h
    obtain ⟨k1, v1⟩ := q
    rw [popKey] at h
    by_cases hk : k1 = k
    · rw [if_pos hk] at h
      exact List.mem_cons_of_mem _ h
    · rw [if_neg hk] at h
      rcases List.mem_cons.mp h with hh | hh
      · exact hh ▸ List.mem_cons_self _ _
      · exact List.mem_cons_of_mem _ (ih p hh)

/-- A plain value seeds to a non-deferred value. -/
theorem seedValue_plain {v : Value} (h : v.isPlain = true) :
    (seedValue v).isUneval = false := by
  cases v with
  | composite d ch => exact Bool.noConfusion h
  | uneval u => exact Bool.noConfusion h
  | vnone => rfl
  | vint n => rfl
  | tensor s => rfl

theorem seedArgs_no_uneval :
    ∀ (args : List Node) (kw : List (String × Value)),
      (∀ p ∈ kw, p.2.isPlain = true) →
      ∀ q ∈ (seedArgs args kw).1, q.2.isUneval = false := by
  intro args
  induction args with
  | nil =>
    intro kw _ q hq
    rw [seedArgs] at hq
    exact absurd hq (List.not_mem_nil q)
  | cons a rest ih =>
    intro kw hkw q hq
    rw [seedArgs] at hq
    rcases List.mem_cons.mp hq with hh | hh
    · subst hh
      cases hpop : (popKey a.name kw).1 with
      | none => simp only [hpop, Option.map_none, Option.getD_none]; rfl
      | some v =>
        simp only [hpop, Option.map_some, Option.getD_some]
        obtain ⟨p, hp, hpv⟩ := popKey_val_mem a.name kw v hpop
        exact seedValue_plain (hpv ▸ hkw p hp)
    · exact ih (popKey a.name kw).2
        (fun p hp => hkw p (popKey_snd_mem a.name kw p hp)) q hh

theorem setVal_mem :
    ∀ (k : Known) (a : Node) (v : Value) (q : Node × Value),
      q ∈ setVal a v k → q.2 = v ∨ q ∈ k := by
  intro k
  induction k with
  | nil => intro a v q h; exact absurd h (List.not_mem_nil q)
  | cons p rest ih =>
    intro a v q h
    obtain ⟨n, w⟩ := p
    rw [setVal] at h
    by_cases hk : n.key = a.key
    · rw [if_pos hk] at h
      rcases List.mem_cons.mp h with hh | hh
      · exact Or.inl (by rw [hh])
      · exact Or.inr (List.mem_cons_of_mem _ hh)
    · rw [if_neg hk] at h
      rcases List.mem_cons.mp h with hh | hh
      · exact Or.inr (hh ▸ List.mem_cons_self _ _)
      · rcases ih a v q hh with hv | hm
        · exact Or.inl hv
        · exact Or.inr (List.mem_cons_of_mem _ hm)

theorem pass2_no_uneval {E : Engine} {fuel : Nat} {dimVals : Known}
    (hdims : E.dims.all
      (fun p => p.2.all fun d => d.target.isTensorArg) = true) :
    ∀ (args : List Node) (vals vals2 : Known),
      (∀ a ∈ args, a.deps.all (fun d => d.target.okForC2) = true) →
      (∀ q ∈ vals, q.2.isUneval = false) →
      pass2 E fuel dimVals args vals = .ok vals2 →
      ∀ q ∈ vals2, q.2.isUneval = false := by
  intro args
  induction args with
  | nil =>
    intro vals vals2 _ hvals h q hq
    rw [pass2] at h
    injection h with h
    exact hvals q (h ▸ hq)
  | cons a rest ih =>
    intro vals vals2 hargs hvals h
    have hrest := fun x hx => hargs x (List.mem_cons_of_mem a hx)
    cases hlk : lookupKnown a.key vals with
    | none =>
      simp only [pass2, hlk] at h
      exact ih vals vals2 hrest hvals h
    | some v =>
      cases v with
      | vnone =>
        simp only [pass2, hlk] at h
        rw [exBind_ok] at h
        obtain ⟨provided, hmap, h⟩ := h
        cases provided with
        | nil => exact absurd h (by simp)
        | cons v1 rest1 =>
          cases rest1 with
          | nil =>
            have hv1 : v1.isUneval = false := by
              obtain ⟨dep, hdep, hfd⟩ :=
                mapME_mem_ok hmap v1 (List.mem_cons_self _ _)
              exact getValueDep_benign hdims
                (List.all_eq_true.mp (hargs a (List.mem_cons_self _ _))
                  dep (List.mem_of_mem_filter hdep)) hfd
            refine ih _ vals2 hrest ?_ h
            intro q hq
            rcases setVal_mem vals a v1 q hq with hh | hh
            · rw [hh]; exact hv1
            · exact hvals q hh
          | cons v2 rest2 => exact absurd h (by simp)
      | vint n => simp only [pass2, hlk] at h; exact ih vals vals2 hrest hvals h
      | tensor s =>
        simp only [pass2, hlk] at h
        exact ih vals vals2 hrest hvals h
      | composite d ch =>
        simp only [pass2, hlk] at h
        exact ih vals vals2 hrest hvals h
      | uneval u =>
        simp only [pass2, hlk] at h
        exact ih vals vals2 hrest hvals h

theorem settleGo_no_uneval :
    ∀ (todo done vals2 : Known),
      (∀ q ∈ todo, q.2.isUneval = false) →
      (∀ q ∈ done, q.2.isUneval = false) →
      settleGo done todo = .ok vals2 →
      ∀ q ∈ vals2, q.2.isUneval = false := by
  intro todo
  induction todo with
  | nil =>
    intro done vals2 _ hdone h q hq
    rw [settleGo] at h
    injection h with h
    exact hdone q (h ▸ hq)
  | cons p rest ih =>
    intro done vals2 htodo hdone h
    obtain ⟨n, v⟩ := p
    have hrest := fun x hx => htodo x (List.mem_cons_of_mem _ hx)
    have hv : v.isUneval = false := htodo (n, v) (List.mem_cons_self _ _)
    have hdone2 : ∀ q ∈ done ++ [(n, v)], q.2.isUneval = false := by
      intro q hq
      rcases List.mem_append.mp hq with hh | hh
      · exact hdone q hh
      · rw [List.mem_singleton] at hh
        rw [hh]
        exact hv
    cases v with
    | uneval u => exact Bool.noConfusion hv
    | vnone =>
      simp only [settleGo] at h
      exact ih _ vals2 hrest hdone2 h
    | vint m =>
      simp only [settleGo] at h
      exact ih _ vals2 hrest hdone2 h
    | tensor s =>
      simp only [settleGo] at h
      exact ih _ vals2 hrest hdone2 h
    | composite d ch =>
      simp only [settleGo] at h
      exact ih _ vals2 hrest hdone2 h

theorem pyAdd_plain {v : Value} {n : Int} {v' : Value}
    (h : pyAdd v n = .ok v') : v'.isPlain = true := by
  cases v <;>
    first
    | exact Except.noConfusion h
    | (injection h with h; rw [← h]; rfl)

theorem offsetAdjust_preserves_plain :
    ∀ (kw : List (String × Value)) (offs : List (String × Int))
      (kw1 : List (String × Value)),
      offsetAdjust offs kw = .ok kw1 →
      (∀ p ∈ kw, p.2.isPlain = true) →
      ∀ p ∈ kw1, p.2.isPlain = true := by
  intro kw
  induction kw with
  | nil =>
    intro offs kw1 h _ p hp
    rw [offsetAdjust] at h
    injection h with h
    exact absurd (h ▸ hp) (List.not_mem_nil p)
  | cons q rest ih =>
    intro offs kw1 h hkw p hp
    obtain ⟨k, v⟩ := q
    have hrest := fun x hx => hkw x (List.mem_cons_of_mem _ hx)
    rw [offsetAdjust] at h
    cases ho : offs.lookup k with
    | some w =>
      rw [ho] at h
      rw [exBind_ok] at h
      obtain ⟨v', hv', h⟩ := h
      rw [exBind_ok] at h
      obtain ⟨rest', hrest', h⟩ := h
      injection h with h
      rw [← h] at hp
      rcases List.mem_cons.mp hp with hh | hh
      · rw [hh]
        exact pyAdd_plain hv'
      · exact ih offs rest' hrest' hrest p hh
    | none =>
      rw [ho] at h
      rw [exBind_ok] at h
      obtain ⟨rest', hrest', h⟩ := h
      injection h with h
      rw [← h] at hp
      rcases List.mem_cons.mp hp with hh | hh
      · rw [hh]
        exact hkw (k, v) (List.mem_cons_self _ _)
      · exact ih offs rest' hrest' hrest p hh

/-- C2, amended: when every dimension dependency is tensor-shape-backed and
every argument dependency is benign (in particular, no tiling-function
dependency — the one evaluator whose Pass-3 retry can return another
deferred value) and every supplied value is plain, no value in the mapping
returned by `handle` is an `UnevaluatedDependency`. -/
theorem c2_completeness_amended (E : Engine)
    (kwargs : List (String × Value)) (u : Bool)
    (h1 : E.tensorOnlyDims = true)
    (h2 : E.benignArgDeps = true)
    (h3 : ∀ p ∈ kwargs, p.2.isPlain = true) :
    ∀ (m : List (String × Value)) (b : Bool),
      handle E kwargs u = .ok (m, b) →
      ∀ q ∈ m, q.2.isUneval = false := by
  intro m b h
  simp only [handle, exBind_ok] at h
  obtain ⟨kw1, hoa, kw2, hex, vals, hdv, sizes, _, dle, _, vok, _, h⟩ := h
  have hkw1 : ∀ p ∈ kw1, p.2.isPlain = true :=
    offsetAdjust_preserves_plain kwargs E.offsets kw1 hoa h3
  have hex' : extractComposites E.parameters kw1 = .ok kw1 :=
    extractComposites_plain _ _ hkw1
  rw [hex'] at hex
  injection hex with hex
  subst hex
  have hvals : ∀ q ∈ vals, q.2.isUneval = false := by
    rw [deriveValues] at hdv
    by_cases hemp : (seedDims E.dims (seedArgs E.arguments kw1).2).2.isEmpty
    · rw [if_pos hemp, exBind_ok] at hdv
      obtain ⟨vals2, hp2, hst⟩ := hdv
      have hseed := seedArgs_no_uneval E.arguments kw1 hkw1
      have hargs : ∀ a ∈ E.arguments,
          a.deps.all (fun d => d.target.okForC2) = true :=
        List.all_eq_true.mp h2
      have hv2 := pass2_no_uneval h1 E.arguments _ vals2 hargs hseed hp2
      exact settleGo_no_uneval vals2 [] vals hv2
        (fun q hq => absurd hq (List.not_mem_nil q)) hst
    · rw [if_neg hemp] at hdv
      exact Except.noConfusion hdv
  cases vok with
  | false =>
    simp only [Bool.false_eq_true, if_false] at h
    exact Except.noConfusion h
  | true =>
    simp only [if_true] at h
    injection h with h
    have hm : m = vals.map (fun p => (p.1.name, p.2)) := by
      have := congrArg Prod.fst h
      simpa using this.symm
    rw [hm]
    intro q hq
    obtain ⟨p, hp, hpq⟩ := List.mem_map.mp hq
    rw [← hpq]
    exact hvals p hp

/-- Witness for C2's amended theorem on `engTwoTensors`. -/
theorem c2_completeness_witness :
    (resOf (handle engTwoTensors [] false)).all
      (fun q => !q.2.isUneval) = true := by
  obtain ⟨m, b, hmb⟩ : ∃ m b, handle engTwoTensors [] false = .ok (m, b) :=
    ⟨_, _, rfl⟩
  have h := c2_completeness_amended engTwoTensors [] false rfl rfl
    (fun p hp => absurd hp (List.not_mem_nil p)) m b hmb
  rw [hmb]
  rw [List.all_eq_true]
  intro q hq
  rw [h q hq]
  rfl
